import Mathlib

set_option maxRecDepth 100000

/-!
Shallow embedding of the serena repository core (multi-server supervisor,
BSL parser, BSL symbol cache, BSL language-server fingerprinting) in Lean 4,
together with theorems settling the frozen claims about the spec.

Conventions of the embedding:
* Python strings are Lean `String` / `List Char`; machine integers are `Nat`
  with explicit `% 2 ^ w` reductions where overflow matters.
* Python `dict` objects are association lists with insertion-order semantics
  (`dictSet` replaces in place or appends a fresh key at the end).
* File-system and process effects are abstracted into explicit inputs
  (file contents, child-process liveness oracles); the pure logic of each
  source function is translated line by line.
-/

namespace Serena

/-! ### Python string primitives -/

/-- Word characters of the regex class `[а-яёА-ЯЁ\w]` (Python `re` with
Unicode semantics restricted to the alphabets that occur in BSL sources):
ASCII letters, digits, underscore, and the Cyrillic block. -/
def isWordChar (c : Char) : Bool :=
  (('a' ≤ c && c ≤ 'z') || ('A' ≤ c && c ≤ 'Z') || ('0' ≤ c && c ≤ '9') ||
    c == '_' || (0x400 ≤ c.toNat && c.toNat ≤ 0x4FF))

/-- Whitespace recognised by Python's `\s` / `str.strip` (ASCII part). -/
def isPySpace (c : Char) : Bool :=
  c == ' ' || c == '\t' || c == '\n' || c == '\r' || c == '\x0b' || c == '\x0c'

/-- Python `str.lower` restricted to the alphabets occurring in the sources:
ASCII `A`-`Z`, Cyrillic `А`-`Я` (U+0410..U+042F) and `Ё` (U+0401). -/
def pyLowerChar (c : Char) : Char :=
  if 'A' ≤ c && c ≤ 'Z' then Char.ofNat (c.toNat + 32)
  else if 0x410 ≤ c.toNat && c.toNat ≤ 0x42F then Char.ofNat (c.toNat + 32)
  else if c.toNat = 0x401 then Char.ofNat 0x451
  else c

def pyLower (s : String) : String :=
  String.mk (s.toList.map pyLowerChar)

/-- Case-insensitive character comparison, as used by `re.IGNORECASE`. -/
def charIEq (a b : Char) : Bool :=
  pyLowerChar a == pyLowerChar b

/-- `needle` starts `hay`. -/
def startsWithChars : List Char → List Char → Bool
  | [], _ => true
  | _ :: _, [] => false
  | a :: as, b :: bs => a == b && startsWithChars as bs

/-- `needle` occurs as a contiguous substring of `hay` (Python `in`). -/
def listContainsSub (needle hay : List Char) : Bool :=
  if startsWithChars needle hay then true
  else
    match hay with
    | [] => false
    | _ :: t => listContainsSub needle t

def pyContains (hay needle : String) : Bool :=
  listContainsSub needle.toList hay.toList

/-- Python `str.strip()` (default whitespace). -/
def pyStripList (l : List Char) : List Char :=
  ((l.dropWhile isPySpace).reverse.dropWhile isPySpace).reverse

def pyStrip (s : String) : String :=
  String.mk (pyStripList s.toList)

/-- Python `str.split("\n")`. -/
def splitNl : List Char → List (List Char)
  | [] => [[]]
  | c :: rest =>
    if c = '\n' then [] :: splitNl rest
    else
      match splitNl rest with
      | l :: ls => (c :: l) :: ls
      | [] => [[c]]

def pySplitNl (s : String) : List String :=
  (splitNl s.toList).map String.mk

/-- Number of newline characters in a character list. -/
def countNl (l : List Char) : Nat :=
  l.count '\n'

/-! ### Newline normalisation and content fingerprint
(`BslLanguageServer._compute_file_hash`) -/

/-- Python `content.replace("\r\n", "\n")`: left-to-right, non-overlapping;
the scan resumes after each replacement. -/
def replaceCRLF : List Char → List Char
  | '\r' :: '\n' :: rest => '\n' :: replaceCRLF rest
  | c :: rest => c :: replaceCRLF rest
  | [] => []

/-- Python `content.replace("\r", "\n")` (single-character pattern). -/
def replaceCR (l : List Char) : List Char :=
  l.map (fun c => if c = '\r' then '\n' else c)

/-- The newline normalisation applied before hashing:
`content.replace("\r\n", "\n").replace("\r", "\n")`. -/
def normNewlines (l : List Char) : List Char :=
  replaceCR (replaceCRLF l)

def normString (s : String) : String :=
  String.mk (normNewlines s.toList)

/-- UTF-8 encoding of one code point (`str.encode("utf-8")`). -/
def utf8EncodeChar (c : Char) : List Nat :=
  let n := c.toNat
  if n < 0x80 then [n]
  else if n < 0x800 then
    [0xC0 ||| (n >>> 6), 0x80 ||| (n &&& 0x3F)]
  else if n < 0x10000 then
    [0xE0 ||| (n >>> 12), 0x80 ||| ((n >>> 6) &&& 0x3F), 0x80 ||| (n &&& 0x3F)]
  else
    [0xF0 ||| (n >>> 18), 0x80 ||| ((n >>> 12) &&& 0x3F),
      0x80 ||| ((n >>> 6) &&& 0x3F), 0x80 ||| (n &&& 0x3F)]

def utf8Encode (l : List Char) : List Nat :=
  l.flatMap utf8EncodeChar

/-! #### MD5 (`hashlib.md5`), executable over byte lists -/

def u32 (x : Nat) : Nat := x % 4294967296

def rotl (x n : Nat) : Nat :=
  u32 (x <<< n) ||| (x >>> (32 - n))

/-- MD5 per-round sine-derived constants. -/
def md5K : List Nat :=
  [0xd76aa478, 0xe8c7b756, 0x242070db, 0xc1bdceee,
   0xf57c0faf, 0x4787c62a, 0xa8304613, 0xfd469501,
   0x698098d8, 0x8b44f7af, 0xffff5bb1, 0x895cd7be,
   0x6b901122, 0xfd987193, 0xa679438e, 0x49b40821,
   0xf61e2562, 0xc040b340, 0x265e5a51, 0xe9b6c7aa,
   0xd62f105d, 0x02441453, 0xd8a1e681, 0xe7d3fbc8,
   0x21e1cde6, 0xc33707d6, 0xf4d50d87, 0x455a14ed,
   0xa9e3e905, 0xfcefa3f8, 0x676f02d9, 0x8d2a4c8a,
   0xfffa3942, 0x8771f681, 0x6d9d6122, 0xfde5380c,
   0xa4beea44, 0x4bdecfa9, 0xf6bb4b60, 0xbebfbc70,
   0x289b7ec6, 0xeaa127fa, 0xd4ef3085, 0x04881d05,
   0xd9d4d039, 0xe6db99e5, 0x1fa27cf8, 0xc4ac5665,
   0xf4292244, 0x432aff97, 0xab9423a7, 0xfc93a039,
   0x655b59c3, 0x8f0ccc92, 0xffeff47d, 0x85845dd1,
   0x6fa87e4f, 0xfe2ce6e0, 0xa3014314, 0x4e0811a1,
   0xf7537e82, 0xbd3af235, 0x2ad7d2bb, 0xeb86d391]

/-- MD5 per-round left-rotation amounts. -/
def md5S : List Nat :=
  [7, 12, 17, 22, 7, 12, 17, 22, 7, 12, 17, 22, 7, 12, 17, 22,
   5, 9, 14, 20, 5, 9, 14, 20, 5, 9, 14, 20, 5, 9, 14, 20,
   4, 11, 16, 23, 4, 11, 16, 23, 4, 11, 16, 23, 4, 11, 16, 23,
   6, 10, 15, 21, 6, 10, 15, 21, 6, 10, 15, 21, 6, 10, 15, 21]

/-- Little-endian 32-bit words from a byte list (length a multiple of 4). -/
def md5Words : List Nat → List Nat
  | b0 :: b1 :: b2 :: b3 :: rest =>
    (b0 ||| (b1 <<< 8) ||| (b2 <<< 16) ||| (b3 <<< 24)) :: md5Words rest
  | _ => []

/-- One MD5 operation (round index `i`, state `(a, b, c, d)`). -/
def md5Op (M : List Nat) (i : Nat) (st : Nat × Nat × Nat × Nat) :
    Nat × Nat × Nat × Nat :=
  let a := st.1
  let b := st.2.1
  let c := st.2.2.1
  let d := st.2.2.2
  let notW (x : Nat) : Nat := x ^^^ 0xFFFFFFFF
  let fg : Nat × Nat :=
    if i < 16 then ((b &&& c) ||| (notW b &&& d), i)
    else if i < 32 then ((d &&& b) ||| (notW d &&& c), (5 * i + 1) % 16)
    else if i < 48 then (b ^^^ c ^^^ d, (3 * i + 5) % 16)
    else (c ^^^ (b ||| notW d), (7 * i) % 16)
  let f := u32 (fg.1 + a + md5K.getD i 0 + M.getD fg.2 0)
  (d, u32 (b + rotl f (md5S.getD i 0)), b, c)

/-- Process one 64-byte block. -/
def md5Block (st : Nat × Nat × Nat × Nat) (block : List Nat) :
    Nat × Nat × Nat × Nat :=
  let M := md5Words block
  let r := (List.range 64).foldl (fun s i => md5Op M i s) st
  (u32 (st.1 + r.1), u32 (st.2.1 + r.2.1), u32 (st.2.2.1 + r.2.2.1),
    u32 (st.2.2.2 + r.2.2.2))

/-- Split into 64-byte chunks.  The fuel bounds the number of chunks; each
step consumes 64 bytes, so fuel `l.length` is always sufficient. -/
def chunks64Go : Nat → List Nat → List (List Nat)
  | 0, _ => []
  | _, [] => []
  | fuel + 1, l => l.take 64 :: chunks64Go fuel (l.drop 64)

def chunks64 (l : List Nat) : List (List Nat) :=
  chunks64Go l.length l

/-- Eight little-endian bytes of the 64-bit message bit length. -/
def md5LenBytes (len : Nat) : List Nat :=
  (List.range 8).map (fun i => ((len * 8) >>> (8 * i)) % 256)

/-- MD5 padding: `0x80`, zeros to 56 mod 64, then the bit length. -/
def md5Pad (msg : List Nat) : List Nat :=
  let padZeros := (119 - msg.length % 64) % 64
  msg ++ [0x80] ++ List.replicate padZeros 0 ++ md5LenBytes msg.length

/-- The four-word MD5 digest of a byte list. -/
def md5Digest (msg : List Nat) : Nat × Nat × Nat × Nat :=
  (chunks64 (md5Pad msg)).foldl md5Block
    (0x67452301, 0xefcdab89, 0x98badcfe, 0x10325476)

/-- Lower-case hex digit for `n < 16` (`'0'`..`'9'`, `'a'`..`'f'`). -/
def hexChar (n : Nat) : Char :=
  Char.ofNat (if n < 10 then 48 + n else 87 + n)

def byteHex (b : Nat) : List Char :=
  [hexChar (b >>> 4), hexChar (b &&& 15)]

def wordLeBytes (w : Nat) : List Nat :=
  [w % 256, (w >>> 8) % 256, (w >>> 16) % 256, (w >>> 24) % 256]

/-- `hashlib.md5(bytes).hexdigest()`. -/
def md5Hex (msg : List Nat) : String :=
  let d := md5Digest msg
  String.mk
    (((wordLeBytes d.1 ++ wordLeBytes d.2.1 ++ wordLeBytes d.2.2.1 ++
      wordLeBytes d.2.2.2).map byteHex).flatten)

/-- The pure content part of `BslLanguageServer._compute_file_hash`: MD5 hex
digest of the newline-normalised UTF-8 encoded content.  (Reading the file
from disk and the empty-string fallback on I/O errors are abstracted away:
the decoded text is the input.) -/
def computeFileHash (content : String) : String :=
  md5Hex (utf8Encode (normString content).toList)

/-! ### Multi-server supervisor (`serena/multi_server.py`)

Process effects are abstracted: a spawned child is represented by whether it
is observed alive (`exited` flag, the result of `poll()`); wall-clock reads
are an explicit `now` parameter; `time.sleep(backoff)` is modelled by
reporting the slept duration; log-file handles are omitted (pure I/O). -/

/-- Abstraction of a `subprocess.Popen` handle: `exited` is whether
`poll()` returns a return code. -/
structure ChildProc where
  exited : Bool
deriving DecidableEq, Repr

/-- `ManagedServerProcess` dataclass fields (log-file handles omitted). -/
structure ManagedServerProcess where
  project_name : String
  project_path : String
  port : Nat
  transport : String
  host : String
  context : Option String
  modes : List String
  log_level : Option String
  auto_restart : Bool
  process : Option ChildProc
  start_time : Option Nat
  restart_count : Nat
deriving DecidableEq, Repr

namespace ManagedServerProcess

/-- Dataclass construction as in `MultiServerManager.add_server`:
`auto_restart` defaults to `True`, private fields start empty. -/
def mk0 (project_name project_path : String) (port : Nat)
    (transport host : String) (context : Option String)
    (modes : List String) (log_level : Option String) :
    ManagedServerProcess :=
  ⟨project_name, project_path, port, transport, host, context, modes,
    log_level, true, none, none, 0⟩

/-- `is_alive`: the subprocess exists and `poll()` returns `None`. -/
def is_alive (s : ManagedServerProcess) : Bool :=
  match s.process with
  | some p => !p.exited
  | none => false

/-- `start`: no-op when already running, otherwise spawn the child.
`childLives` tells whether the spawned child is observed alive afterwards
(the liveness oracle replacing the real `subprocess.Popen`). -/
def start (s : ManagedServerProcess) (now : Nat) (childLives : Bool) :
    ManagedServerProcess :=
  if s.is_alive then s
  else { s with process := some ⟨!childLives⟩, start_time := some now }

/-- `stop`: both the not-running early return and the terminate/kill path
end with `_process = None`. -/
def stop (s : ManagedServerProcess) : ManagedServerProcess :=
  { s with process := none }

/-- `restart`: bounded retries with exponential backoff.  Returns the new
state, the boolean result, and the duration passed to `time.sleep`
(`None` when the attempt was refused). -/
def restart (s : ManagedServerProcess) (now : Nat) (childLives : Bool) :
    ManagedServerProcess × Bool × Option Nat :=
  if 3 ≤ s.restart_count then (s, false, none)
  else
    let backoff := min (2 ^ s.restart_count) 30
    let s1 := (s.stop).start now childLives
    ({ s1 with restart_count := s1.restart_count + 1 }, true, some backoff)

def reset_restart_count (s : ManagedServerProcess) : ManagedServerProcess :=
  { s with restart_count := 0 }

/-- `uptime`: time since start while alive, else `None`. -/
def uptime (s : ManagedServerProcess) (now : Nat) : Option Nat :=
  match s.start_time with
  | some t => if s.is_alive then some (now - t) else none
  | none => none

/-- The `status` property, with its four source branches kept. -/
def status (s : ManagedServerProcess) : String :=
  if s.is_alive then "running"
  else if s.process.isSome then "crashed"
  else if !s.auto_restart then "stopped"
  else "stopped"

end ManagedServerProcess

/-- `MultiServerManager.STABLE_PERIOD`. -/
def STABLE_PERIOD : Nat := 60

/-- `MultiServerManager`: the `_servers` dict (insertion-ordered). -/
structure MultiServerManager where
  servers : List (String × ManagedServerProcess)
deriving DecidableEq, Repr

namespace MultiServerManager

def emptyManager : MultiServerManager := ⟨[]⟩

def serverNames (m : MultiServerManager) : List String :=
  m.servers.map Prod.fst

def serverPorts (m : MultiServerManager) : List Nat :=
  m.servers.map (fun p => p.2.port)

def getServer (m : MultiServerManager) (name : String) :
    Option ManagedServerProcess :=
  (m.servers.find? (fun p => p.1 == name)).map Prod.snd

/-- In-place update of one entry of the `_servers` dict. -/
def updateServer (m : MultiServerManager) (name : String)
    (f : ManagedServerProcess → ManagedServerProcess) : MultiServerManager :=
  ⟨m.servers.map (fun p => if p.1 == name then (p.1, f p.2) else p)⟩

/-- `add_server`: reject duplicate names, otherwise register a fresh
handle (dict insertion appends the new key). -/
def add_server (m : MultiServerManager) (project_name project_path : String)
    (port : Nat) (transport host : String) (context : Option String)
    (modes : List String) (log_level : Option String) :
    Except String MultiServerManager :=
  if (m.serverNames).contains project_name then
    .error ("Server for project '" ++ project_name ++ "' already registered")
  else
    .ok ⟨m.servers ++ [(project_name,
      ManagedServerProcess.mk0 project_name project_path port transport host
        context modes log_level)]⟩

/-- `stop_server` (disables auto-restart); `ValueError` on unknown name. -/
def stop_server (m : MultiServerManager) (project_name : String) :
    Except String MultiServerManager :=
  match m.getServer project_name with
  | none => .error ("Unknown project: " ++ project_name)
  | some _ => .ok (m.updateServer project_name
      (fun s => ({ s with auto_restart := false }).stop))

/-- `start_server` (re-enables auto-restart). -/
def start_server (m : MultiServerManager) (project_name : String)
    (now : Nat) (childLives : Bool) : Except String MultiServerManager :=
  match m.getServer project_name with
  | none => .error ("Unknown project: " ++ project_name)
  | some _ => .ok (m.updateServer project_name
      (fun s => ({ s with auto_restart := true }).start now childLives))

/-- `find_free_port`, with the socket-bind probe abstracted into the
`bindOk` oracle; sequential scan over a window of 100 ports. -/
def find_free_port (m : MultiServerManager) (bindOk : Nat → Bool) :
    Except String Nat :=
  let used := m.serverPorts
  let start_port := match used.max? with
    | some mx => mx + 1
    | none => 9200
  match (List.range 100).find? (fun i => bindOk (start_port + i)) with
  | some i => .ok (start_port + i)
  | none => .error "No free port found"

/-- The name-deduplication loop of `add_and_start_server`:
`while project_name in existing_names: counter += 1; project_name =
f"{base_name}_{counter}"`.  The fuel bounds loop iterations; since the
candidate names are pairwise distinct and `existing` is finite, fuel
`existing.length + 1` is always sufficient. -/
def dedupNameGo (existing : List String) (base : String) :
    Nat → String → Nat → String
  | 0, name, _ => name
  | fuel + 1, name, counter =>
    if existing.contains name then
      dedupNameGo existing base fuel
        (base ++ "_" ++ Nat.repr (counter + 1)) (counter + 1)
    else name

def dedupName (existing : List String) (base : String) : String :=
  dedupNameGo existing base (existing.length + 1) base 1

/-- The name produced for the `j`-th registration of the same basename:
the basename itself first, then `base_2`, `base_3`, … -/
def nameOf (base : String) (j : Nat) : String :=
  if j = 1 then base else base ++ "_" ++ Nat.repr j

/-- The names registered after `k` same-basename registrations. -/
def namesList (base : String) (k : Nat) : List String :=
  (List.range k).map (fun i => nameOf base (i + 1))

/-- Python `str.rstrip("/\\")`. -/
def pyRstripSlashes (s : String) : String :=
  String.mk ((s.toList.reverse.dropWhile (fun c => c == '/' || c == '\\')).reverse)

/-- `os.path.basename` (POSIX): the component after the last `/`. -/
def pyBasename (s : String) : String :=
  String.mk ((s.toList.reverse.takeWhile (fun c => c ≠ '/')).reverse)

/-- `add_and_start_server`: derive a deduplicated name from the path's
basename, pick a free port, register, start.  Wall clock, child liveness
and the socket probe are explicit oracles. -/
def add_and_start_server (m : MultiServerManager) (project_path : String)
    (transport? host? : Option String) (context : Option String)
    (modes : List String) (log_level : Option String)
    (bindOk : Nat → Bool) (now : Nat) (childLives : Bool) :
    Except String (MultiServerManager × String × Nat) :=
  let base_name := pyBasename (pyRstripSlashes project_path)
  if base_name = "" then
    .error ("Cannot derive project name from path: " ++ project_path)
  else
    let project_name := dedupName m.serverNames base_name
    let first := m.servers.head?.map Prod.snd
    let transport := match transport? with
      | some t => t
      | none => match first with
        | some f => f.transport
        | none => "sse"
    let host := match host? with
      | some h => h
      | none => match first with
        | some f => f.host
        | none => "0.0.0.0"
    match m.find_free_port bindOk with
    | .error e => .error e
    | .ok port =>
      match m.add_server project_name project_path port transport host
        context modes log_level with
      | .error e => .error e
      | .ok m1 =>
        match m1.start_server project_name now childLives with
        | .error e => .error e
        | .ok m2 => .ok (m2, project_name, port)

/-- The per-worker body of the `run_forever` monitor loop: restart a dead
worker when `auto_restart` is set (disabling it when the restart is
refused), then reset the restart counter after a stable period.  Returns
the updated handle and the backoff duration slept, if any. -/
def monitorWorker (s : ManagedServerProcess) (now : Nat)
    (childLives : Bool) : ManagedServerProcess × Option Nat :=
  let sr :=
    if ¬ s.is_alive ∧ s.auto_restart then
      let r := s.restart now childLives
      if r.2.1 then (r.1, r.2.2)
      else ({ r.1 with auto_restart := false }, r.2.2)
    else (s, none)
  let s1 := sr.1
  let s2 :=
    if s1.is_alive then
      match s1.uptime now with
      | some u => if STABLE_PERIOD < u then s1.reset_restart_count else s1
      | none => s1
    else s1
  (s2, sr.2)

/-- One monitor tick over the snapshot of all workers (the control-file
command processing that follows is a separate concern and not part of the
per-worker claims). -/
def monitorPass (m : MultiServerManager) (now : Nat)
    (lives : String → Bool) : MultiServerManager :=
  ⟨m.servers.map (fun p => (p.1, (monitorWorker p.2 now (lives p.1)).1))⟩

/-- The `status` value as a function of the two booleans that determine
it: child liveness and whether a process object is retained. -/
def statusOf (alive retained : Bool) : String :=
  if alive then "running" else if retained then "crashed" else "stopped"

/-- A request record for driving `add_server` over a sequence of calls. -/
structure AddReq where
  name : String
  path : String
  port : Nat
  transport : String
  host : String
  context : Option String
  modes : List String
  log_level : Option String
deriving DecidableEq, Repr

def runAdds (m : MultiServerManager) : List AddReq →
    Except String MultiServerManager
  | [] => .ok m
  | r :: rs =>
    match m.add_server r.name r.path r.port r.transport r.host
      r.context r.modes r.log_level with
    | .ok m1 => runAdds m1 rs
    | .error e => .error e

/-- Drive `add_and_start_server` over a list of project paths (default
arguments, an always-succeeding socket probe, live children), collecting
the derived project names in call order. -/
def addStartSeq (m : MultiServerManager) : List String →
    Except String (MultiServerManager × List String)
  | [] => .ok (m, [])
  | p :: ps =>
    match m.add_and_start_server p none none none [] none
      (fun _ => true) 0 true with
    | .ok r =>
      match addStartSeq r.1 ps with
      | .ok rest => .ok (rest.1, r.2.1 :: rest.2)
      | .error e => .error e
    | .error e => .error e

end MultiServerManager

/-- Decimal digits of a natural number, most significant first (the
digit list produced by `Nat.toDigitsCore` with sufficient fuel). -/
def decDigits (n : Nat) : List Char :=
  if n < 10 then [Nat.digitChar n]
  else decDigits (n / 10) ++ [Nat.digitChar (n % 10)]
termination_by n
decreasing_by
  exact Nat.div_lt_self (by omega) (by omega)

/-- Numeric value of a decimal digit character. -/
def digitVal (c : Char) : Nat := c.toNat - 48

/-- Decode a decimal digit list (left inverse of `decDigits`). -/
def numOfDigits (l : List Char) : Nat :=
  l.foldl (fun a c => 10 * a + digitVal c) 0

/-- A freshly-started worker whose child is observed dead (crash-loop
scenario start state). -/
def mspCrash0 : ManagedServerProcess :=
  ⟨"p", "/p", 9200, "sse", "0.0.0.0", none, [], none, true,
    some ⟨true⟩, some 0, 0⟩

/-- A dead worker whose restart budget is exhausted. -/
def mspExhausted : ManagedServerProcess :=
  ⟨"alpha", "/a", 9200, "sse", "0.0.0.0", none, [], none, true,
    some ⟨true⟩, some 0, 3⟩

/-- Dead with the process object retained, auto-restart off. -/
def mspCrashedOff : ManagedServerProcess :=
  ⟨"a", "/a", 1, "sse", "h", none, [], none, false, some ⟨true⟩, none, 0⟩

/-- Stopped (no process object), auto-restart off. -/
def mspStoppedOff : ManagedServerProcess :=
  ⟨"a", "/a", 1, "sse", "h", none, [], none, false, none, none, 0⟩

/-- The manager holding the single registration used in witnesses. -/
def mOneServer : MultiServerManager :=
  ⟨[("a", ManagedServerProcess.mk0 "a" "/pa" 9200 "sse" "0.0.0.0"
      none [] none)]⟩

/-! ### Shared parse-result data model (`solidlsp/bsl_parser.py` dataclasses) -/

structure BSLParam where
  name : String
  byval : Bool
  default : Option String
deriving DecidableEq, Repr

structure BSLCallPosition where
  call : String
  line : Nat
  character : Nat
deriving DecidableEq, Repr

structure BSLModuleVar where
  name : String
  is_export : Bool
  description : String
deriving DecidableEq, Repr

structure BSLMethod where
  name : String
  line : Nat
  endline : Nat
  isproc : Bool
  is_export : Bool
  params : List BSLParam
  description : String
  context : String
  calls_position : List BSLCallPosition
deriving DecidableEq, Repr

/-- `BSLParseResult`; the `module_vars` dict keeps insertion order. -/
structure BSLParseResult where
  methods : List BSLMethod
  global_calls : List BSLCallPosition
  module_vars : List (String × BSLModuleVar)
deriving DecidableEq, Repr

/-! ### Python-dict primitives (insertion-ordered association lists) -/

def dictGetD {α : Type} (d : List (String × α)) (k : String) (dflt : α) : α :=
  match d.find? (fun kv => kv.1 == k) with
  | some kv => kv.2
  | none => dflt

def dictMem {α : Type} (d : List (String × α)) (k : String) : Bool :=
  (d.find? (fun kv => kv.1 == k)).isSome

/-- `d[k] = v`: replace in place, or append a fresh key at the end. -/
def dictSet {α : Type} (d : List (String × α)) (k : String) (v : α) :
    List (String × α) :=
  match d with
  | [] => [(k, v)]
  | kv :: rest => if kv.1 == k then (k, v) :: rest else kv :: dictSet rest k v

/-- `d.pop(k, None)`: drop the entry with key `k` (keys are unique). -/
def dictPop {α : Type} (d : List (String × α)) (k : String) :
    List (String × α) :=
  d.eraseP (fun kv => kv.1 == k)

/-! ### BSL symbol cache (`solidlsp/bsl_cache.py`)

The `threading.Lock` only serialises the operations; each public operation
is a pure state transformer here. -/

structure BSLCallInfo where
  filename : String
  call : String
  line : Nat
  character : Nat
  method_name : String
  module : String
deriving DecidableEq, Repr

structure BSLModuleInfo where
  filename : String
  module : String
  type : String
  parenttype : String
  project : String
deriving DecidableEq, Repr

structure BSLMethodInfo where
  method : BSLMethod
  filename : String
  module : String
deriving DecidableEq, Repr

structure BSLCache where
  methods : List BSLMethodInfo
  module_vars : List (String × List BSLModuleVar)
  calls : List (String × List BSLCallInfo)
  modules : List BSLModuleInfo
  method_name_index : List (String × List Nat)
  method_module_index : List (String × List Nat)
  method_export_index : List Nat
deriving DecidableEq, Repr

/-- `get_stats()` output (also the `bsl` block of the statistics file). -/
structure BslStats where
  methods : Nat
  exported_methods : Nat
  module_vars : Nat
  calls : Nat
  unique_calls : Nat
  modules : Nat
deriving DecidableEq, Repr

namespace BSLCache

def emptyCache : BSLCache := ⟨[], [], [], [], [], [], []⟩

/-- The shared body of `add_method` and each `add_methods_batch`
iteration (the source duplicates it verbatim inside the batch loop). -/
def addMethodCore (c : BSLCache) (method : BSLMethod)
    (filename module : String) : BSLCache :=
  let mi : BSLMethodInfo := ⟨method, filename, module⟩
  let index := c.methods.length
  let nameKey := pyLower method.name
  let name_index := dictSet c.method_name_index nameKey
    (dictGetD c.method_name_index nameKey [] ++ [index])
  let module_index :=
    if module ≠ "" then
      dictSet c.method_module_index (pyLower module)
        (dictGetD c.method_module_index (pyLower module) [] ++ [index])
    else c.method_module_index
  let export_index :=
    if method.is_export then c.method_export_index ++ [index]
    else c.method_export_index
  { c with
    methods := c.methods ++ [mi]
    method_name_index := name_index
    method_module_index := module_index
    method_export_index := export_index }

def add_method (c : BSLCache) (method : BSLMethod)
    (filename module : String) : BSLCache :=
  addMethodCore c method filename module

def add_methods_batch (c : BSLCache)
    (methods_data : List (BSLMethod × String × String)) : BSLCache :=
  methods_data.foldl (fun acc t => addMethodCore acc t.1 t.2.1 t.2.2) c

def add_module_var (c : BSLCache) (var : BSLModuleVar) (filename : String) :
    BSLCache :=
  { c with module_vars := (dictSet c.module_vars filename
      (dictGetD c.module_vars filename [] ++ [var])) }

def add_module_vars_batch (c : BSLCache)
    (vars_data : List (BSLModuleVar × String)) : BSLCache :=
  vars_data.foldl (fun acc t => acc.add_module_var t.1 t.2) c

def addCallCore (c : BSLCache) (call : BSLCallPosition)
    (filename method_name module : String) : BSLCache :=
  let call_info : BSLCallInfo :=
    ⟨filename, call.call, call.line, call.character, method_name, module⟩
  { c with calls := (dictSet c.calls call.call
      (dictGetD c.calls call.call [] ++ [call_info])) }

def add_call (c : BSLCache) (call : BSLCallPosition)
    (filename method_name module : String) : BSLCache :=
  addCallCore c call filename method_name module

def add_calls_batch (c : BSLCache)
    (calls_data : List (BSLCallPosition × String × String × String)) :
    BSLCache :=
  calls_data.foldl
    (fun acc t => addCallCore acc t.1 t.2.1 t.2.2.1 t.2.2.2) c

def add_module (c : BSLCache) (module_info : BSLModuleInfo) : BSLCache :=
  { c with modules := c.modules ++ [module_info] }

/-- One `_rebuild_indices` loop iteration for the enumerated method at
position `im.1`. -/
def rebuildStep
    (acc : List (String × List Nat) × List (String × List Nat) × List Nat)
    (im : Nat × BSLMethodInfo) :
    List (String × List Nat) × List (String × List Nat) × List Nat :=
  let i := im.1
  let mi := im.2
  let nKey := pyLower mi.method.name
  let nIdx := dictSet acc.1 nKey (dictGetD acc.1 nKey [] ++ [i])
  let mIdx :=
    if mi.module ≠ "" then
      dictSet acc.2.1 (pyLower mi.module)
        (dictGetD acc.2.1 (pyLower mi.module) [] ++ [i])
    else acc.2.1
  let eIdx :=
    if mi.method.is_export then acc.2.2 ++ [i] else acc.2.2
  (nIdx, mIdx, eIdx)

/-- `_rebuild_indices`: clear the three indices and re-derive them from
the enumerated `methods` list. -/
def rebuildIndices (methods : List BSLMethodInfo) :
    List (String × List Nat) × List (String × List Nat) × List Nat :=
  methods.enum.foldl rebuildStep ([], [], [])

/-- `remove_file_data`: drop the filename's methods (collected in reverse
and popped positionally), rebuild the indices, pop the filename's
module-vars entry, filter the call lists (popping keys whose list becomes
empty), and filter the modules list. -/
def remove_file_data (c : BSLCache) (filename : String) : BSLCache :=
  let idxs := ((List.range c.methods.length).filter
    (fun i => ((c.methods.get? i).map
      (fun mi => mi.filename == filename)).getD false)).reverse
  let methods := idxs.foldl (fun ms i => ms.eraseIdx i) c.methods
  let rebuilt := rebuildIndices methods
  let callsFiltered := c.calls.map
    (fun kv => (kv.1, kv.2.filter (fun ci => !(ci.filename == filename))))
  let removeKeys := (callsFiltered.filter (fun kv => kv.2.isEmpty)).map Prod.fst
  let calls := removeKeys.foldl (fun d k => dictPop d k) callsFiltered
  { methods := methods
    module_vars := dictPop c.module_vars filename
    calls := calls
    modules := c.modules.filter (fun mo => !(mo.filename == filename))
    method_name_index := rebuilt.1
    method_module_index := rebuilt.2.1
    method_export_index := rebuilt.2.2 }

/-- `get_stats`. -/
def get_stats (c : BSLCache) : BslStats :=
  ⟨c.methods.length,
    c.method_export_index.length,
    (c.module_vars.map (fun kv => kv.2.length)).sum,
    (c.calls.map (fun kv => kv.2.length)).sum,
    c.calls.length,
    c.modules.length⟩

end BSLCache

/-- Python dict keys are unique; the assoc-list embedding of the two
dict-valued collections carries that structural fact as an explicit
well-formedness predicate. -/
def BSLCache.WF (c : BSLCache) : Prop :=
  (c.module_vars.map Prod.fst).Nodup ∧ (c.calls.map Prod.fst).Nodup

/-- Index validity: every entry of the three method indices points to a
position holding a method with the matching (lower-cased) key, and every
method position is recorded in each index that should contain it. -/
def BSLCache.IndexValid (c : BSLCache) : Prop :=
  (∀ kv ∈ c.method_name_index, ∀ i ∈ kv.2,
    ∃ mi, c.methods.get? i = some mi ∧ pyLower mi.method.name = kv.1)
  ∧ (∀ kv ∈ c.method_module_index, ∀ i ∈ kv.2,
    ∃ mi, c.methods.get? i = some mi ∧ mi.module ≠ "" ∧
      pyLower mi.module = kv.1)
  ∧ (∀ i ∈ c.method_export_index,
    ∃ mi, c.methods.get? i = some mi ∧ mi.method.is_export = true)
  ∧ (∀ i mi, c.methods.get? i = some mi →
    i ∈ dictGetD c.method_name_index (pyLower mi.method.name) []
    ∧ (mi.module ≠ "" →
        i ∈ dictGetD c.method_module_index (pyLower mi.module) [])
    ∧ (mi.method.is_export = true → i ∈ c.method_export_index))

/-- The public mutating operations of `BSLCache`. -/
inductive CacheOp where
  | addMethod (method : BSLMethod) (filename module : String)
  | addMethodsBatch (data : List (BSLMethod × String × String))
  | addModuleVar (var : BSLModuleVar) (filename : String)
  | addModuleVarsBatch (data : List (BSLModuleVar × String))
  | addCall (call : BSLCallPosition) (filename method_name module : String)
  | addCallsBatch (data : List (BSLCallPosition × String × String × String))
  | addModule (module_info : BSLModuleInfo)
  | removeFileData (filename : String)

def applyOp (c : BSLCache) : CacheOp → BSLCache
  | .addMethod method filename module => c.add_method method filename module
  | .addMethodsBatch data => c.add_methods_batch data
  | .addModuleVar var filename => c.add_module_var var filename
  | .addModuleVarsBatch data => c.add_module_vars_batch data
  | .addCall call filename method_name module =>
      c.add_call call filename method_name module
  | .addCallsBatch data => c.add_calls_batch data
  | .addModule module_info => c.add_module module_info
  | .removeFileData filename => c.remove_file_data filename

def applyOps (c : BSLCache) (ops : List CacheOp) : BSLCache :=
  ops.foldl applyOp c

/-- A small populated cache used to exercise `remove_file_data`. -/
def cacheDemo : BSLCache :=
  applyOps BSLCache.emptyCache
    [ .addMethod ⟨"А", 0, 1, true, true, [], "", "", []⟩ "a.bsl" "МодА",
      .addMethod ⟨"Б2", 0, 1, false, false, [], "", "", []⟩ "b.bsl" "",
      .addModuleVar ⟨"Перем1", true, ""⟩ "a.bsl",
      .addCall ⟨"Б", 2, 0⟩ "a.bsl" "А" "МодА",
      .addCall ⟨"Б", 3, 0⟩ "b.bsl" "Б2" "",
      .addCall ⟨"В", 4, 1⟩ "a.bsl" "А" "МодА",
      .addModule ⟨"a.bsl", "МодА", "CommonModule", "CommonModules", ""⟩ ]

/-! ### BSL shallow parser (`solidlsp/bsl_parser.py`)

The class-level regexes are implemented directly as matchers over
`List Char`.  `re.finditer` with `re.MULTILINE` is a left-to-right scan
trying the pattern at each `^` anchor position and resuming after each
match; greedy pieces followed by disjoint character classes need no
backtracking, and the few optional groups that do backtrack are
implemented with explicit fallbacks. -/

namespace BSLParser

/-- Length of the leading run satisfying `p` (greedy `X*` munch). -/
def countWhile (p : Char → Bool) : List Char → Nat
  | [] => 0
  | c :: rest => if p c then countWhile p rest + 1 else 0

/-- Case-insensitive literal match at the head (`re.IGNORECASE`). -/
def matchIStr : List Char → List Char → Bool
  | [], _ => true
  | _ :: _, [] => false
  | p :: ps, c :: cs => charIEq p c && matchIStr ps cs

/-- First index at which `needle` occurs in `hay` (Python `str.find`,
`None` instead of `-1`). -/
def findSubIdxGo (needle : List Char) : Nat → List Char → Option Nat
  | i, l =>
    if startsWithChars needle l then some i
    else
      match l with
      | [] => none
      | _ :: t => findSubIdxGo needle (i + 1) t

def findSubIdx (needle hay : List Char) : Option Nat :=
  findSubIdxGo needle 0 hay

/-- `str.find(c, start)`. -/
def findCharFrom (l : List Char) (c : Char) (start : Nat) : Option Nat :=
  match (l.drop start).findIdx? (fun x => x == c) with
  | some i => some (start + i)
  | none => none

def kwProc : List Char := "Процедура".toList
def kwFunc : List Char := "Функция".toList
def kwEndProc : List Char := "КонецПроцедуры".toList
def kwEndFunc : List Char := "КонецФункции".toList
def kwExportTok : List Char := "Экспорт".toList
def kwZnach : List Char := "Знач".toList
def kwPerem : List Char := "Перем".toList
def ctxServer : List Char := "НаСервере".toList
def ctxClient : List Char := "НаКлиенте".toList
def ctxServerNC : List Char := "НаСервереБезКонтекста".toList

/-- `KEYWORDS`: identifiers never recorded as calls. -/
def KEYWORDS : List String :=
  ["если", "иначе", "иначеесли", "конецесли", "пока", "конеццикла",
   "для", "каждого", "из", "цикл", "процедура", "функция",
   "конецпроцедуры", "конецфункции", "возврат", "прервать", "продолжить",
   "попытка", "исключение", "вызватьисключение", "новый", "тип",
   "типзнч", "неопределено", "истина", "ложь", "сообщить",
   "сообщениепользователю", "пустаястрока", "стршаблон", "насервере",
   "наклиенте", "насерверебезконтекста", "экспорт", "знач", "перем",
   "конецобласти", "область"]

/-- The `KW\s+([а-яёА-ЯЁ\w]+)\s*\(` tail of the declaration patterns.
Returns the captured name and the number of characters consumed.  The
greedy name run needs no backtracking: a shorter prefix would leave a
word character where a space or `(` is required. -/
def matchKwName (kw : List Char) (l : List Char) : Option (String × Nat) :=
  if matchIStr kw l then
    let l1 := l.drop kw.length
    let nsp := countWhile isPySpace l1
    if nsp = 0 then none
    else
      let l2 := l1.drop nsp
      let nw := countWhile isWordChar l2
      if nw = 0 then none
      else
        let l3 := l2.drop nw
        let nsp2 := countWhile isPySpace l3
        match l3.drop nsp2 with
        | '(' :: _ =>
          some (String.mk (l2.take nw), kw.length + nsp + nw + nsp2 + 1)
        | _ => none
  else none

/-- `\s*(?:Экспорт\s+)?` followed by `matchKwName`; the optional group
falls back to the plain branch when its continuation fails (the regex
backtracks the optional). -/
def matchDeclTail (kw : List Char) (l : List Char) : Option (String × Nat) :=
  let n1 := countWhile isPySpace l
  let l1 := l.drop n1
  let withExp :=
    if matchIStr kwExportTok l1 then
      let l2 := l1.drop kwExportTok.length
      let nsp := countWhile isPySpace l2
      if nsp = 0 then none
      else
        (matchKwName kw (l2.drop nsp)).map
          (fun r => (r.1, n1 + kwExportTok.length + nsp + r.2))
    else none
  match withExp with
  | some r => some r
  | none => (matchKwName kw l1).map (fun r => (r.1, n1 + r.2))

/-- The `(?:&НаСервере|&НаКлиенте|&НаСервереБезКонтекста)?` alternatives,
tried in pattern order, each backtracked when the continuation fails. -/
def tryCtxAlts (kw : List Char) (l0 : List Char) :
    List (List Char) → Option (String × Nat)
  | [] => none
  | alt :: rest =>
    if matchIStr alt (l0.drop 1) then
      match matchDeclTail kw (l0.drop (1 + alt.length)) with
      | some r => some (r.1, 1 + alt.length + r.2)
      | none => tryCtxAlts kw l0 rest
    else tryCtxAlts kw l0 rest

/-- `PROC_PATTERN` / `FUNC_PATTERN` attempted at a `^` anchor position
(the head of `l`).  Returns the captured name and the match length. -/
def matchDecl (kw : List Char) (l : List Char) : Option (String × Nat) :=
  let n0 := countWhile isPySpace l
  let l0 := l.drop n0
  let withCtx :=
    match l0 with
    | '&' :: _ => tryCtxAlts kw l0 [ctxServer, ctxClient, ctxServerNC]
    | _ => none
  match withCtx with
  | some r => some (r.1, n0 + r.2)
  | none => (matchDeclTail kw l0).map (fun r => (r.1, n0 + r.2))

/-- `finditer` scan for a declaration pattern over the whole source:
match only at `^` positions, resume after each match.  Each step consumes
at least one character (a successful match ends at the `(`), so fuel
`length + 1` is always sufficient. -/
def scanDecls (kw : List Char) :
    Nat → Nat → Bool → List Char → List (Nat × String)
  | 0, _, _, _ => []
  | fuel + 1, pos, atLS, l =>
    match (if atLS then matchDecl kw l else none) with
    | some r =>
      (pos, r.1) :: scanDecls kw fuel (pos + r.2) false (l.drop r.2)
    | none =>
      match l with
      | [] => []
      | c :: rest => scanDecls kw fuel (pos + 1) (c == '\n') rest

def finditerDecl (kw : List Char) (src : List Char) : List (Nat × String) :=
  scanDecls kw (src.length + 1) 0 true src

/-- `PROC_END_PATTERN` / `FUNC_END_PATTERN` searched in a single line:
`^\s*Конец…` can only match at position 0. -/
def matchEndKw (endkw : List Char) (line : List Char) : Bool :=
  matchIStr endkw (line.drop (countWhile isPySpace line))

/-- The depth-tracking loop of `_find_method_end` over the enumerated
lines after the declaration.  A declaration line increments the depth only
when it has no leading whitespace (`match.start()` is always 0, compared
with `len(line) - len(line.lstrip())`); otherwise the end-token check is
skipped entirely (`elif`). -/
def findEndGo (endkw : List Char) : Int → List (Nat × List Char) → Option Nat
  | _, [] => none
  | depth, (i, line) :: rest =>
    if (matchDecl kwProc line).isSome || (matchDecl kwFunc line).isSome then
      if countWhile isPySpace line = 0 then findEndGo endkw (depth + 1) rest
      else findEndGo endkw depth rest
    else if matchEndKw endkw line then
      if depth - 1 = 0 then some i else findEndGo endkw (depth - 1) rest
    else findEndGo endkw depth rest

/-- `_find_method_end`. -/
def findMethodEnd (source : List Char) (start_line : Nat) (is_proc : Bool) :
    Option Nat :=
  let lines := splitNl source
  let endkw := if is_proc then kwEndProc else kwEndFunc
  findEndGo endkw 1 ((lines.enum).drop (start_line + 1))

/-- `CONTEXT_PATTERN.search`: leftmost `&` followed by one of the three
directives, alternatives tried in pattern order (so `&НаСервереБезКонтекста`
captures just `НаСервере`); returns the matched group text. -/
def searchCtx : List Char → Option (List Char)
  | [] => none
  | c :: rest =>
    if c = '&' then
      if matchIStr ctxServer rest then some (rest.take ctxServer.length)
      else if matchIStr ctxClient rest then some (rest.take ctxClient.length)
      else if matchIStr ctxServerNC rest then some (rest.take ctxServerNC.length)
      else searchCtx rest
    else searchCtx rest

/-- `_extract_context`: lower the captured text and translate through
`context_map` (default `""`). -/
def extract_context (line : List Char) : String :=
  match searchCtx line with
  | some g =>
    let lg := g.map pyLowerChar
    if lg = "насервере".toList then "НаСервере"
    else if lg = "наклиенте".toList then "НаКлиенте"
    else if lg = "насерверебезконтекста".toList then "НаСервереБезКонтекста"
    else ""
  | none => ""

def headIsWord : List Char → Bool
  | [] => false
  | c :: _ => isWordChar c

/-- `EXPORT_PATTERN.search`: `\bЭкспорт\b` with IGNORECASE; `prevW` is
whether the previous character is a word character. -/
def searchExpGo : Bool → List Char → Bool
  | _, [] => false
  | prevW, c :: rest =>
    if !prevW && matchIStr kwExportTok (c :: rest)
        && !headIsWord ((c :: rest).drop kwExportTok.length) then true
    else searchExpGo (isWordChar c) rest

def searchExportWord (line : List Char) : Bool :=
  searchExpGo false line

/-- `(?:\s*=\s*([^,)]+))?` after a parameter name.  `[^,)]` also matches
spaces, so the combined greedy `\s*` / `[^,)]+` consume the maximal run of
non-`,)` characters, the `\s*` giving back characters until at least one
remains for the group. -/
def paramDefaultPart (l3 : List Char) : Option (List Char × Nat) :=
  let ns1 := countWhile isPySpace l3
  match l3.drop ns1 with
  | '=' :: l4 =>
    let run := countWhile (fun c => !(c == ',' || c == ')')) l4
    if run = 0 then none
    else
      let sp := min (countWhile isPySpace l4) (run - 1)
      some ((l4.drop sp).take (run - sp), ns1 + 1 + run)
  | _ => none

/-- `([а-яёА-ЯЁ\w]+)(?:\s*=\s*([^,)]+))?`: name plus optional default.
Returns (name, group 2, consumed). -/
def paramCore (l2 : List Char) : Option (String × Option (List Char) × Nat) :=
  let nw := countWhile isWordChar l2
  if nw = 0 then none
  else
    match paramDefaultPart (l2.drop nw) with
    | some (g2, n2) => some (String.mk (l2.take nw), some g2, nw + n2)
    | none => some (String.mk (l2.take nw), none, nw)

/-- `PARAM_PATTERN` attempted at one position: optional `Знач\s+`
(falling back to the plain branch when its continuation fails, in which
case `Знач` itself can be captured as the name). -/
def matchParamAt (l : List Char) : Option (String × Option (List Char) × Nat) :=
  let withZnach :=
    if matchIStr kwZnach l then
      let l1 := l.drop kwZnach.length
      let nsp := countWhile isPySpace l1
      if nsp = 0 then none
      else
        (paramCore (l1.drop nsp)).map
          (fun r => (r.1, r.2.1, kwZnach.length + nsp + r.2.2))
    else none
  match withZnach with
  | some r => some r
  | none => paramCore l

/-- Build one `BSLParam` from a match: `byval` is a case-sensitive
substring test on the whole match text, the default is stripped. -/
def mkParam (group0 : List Char) (name : String) (g2 : Option (List Char)) :
    BSLParam :=
  let byval := listContainsSub "Знач".toList group0
    || listContainsSub "знач".toList group0
  let dflt := match g2 with
    | some v =>
      if v.isEmpty then none else some (String.mk (pyStripList v))
    | none => none
  ⟨name, byval, dflt⟩

/-- `PARAM_PATTERN.finditer` over the parameter text. -/
def scanParams : Nat → List Char → List BSLParam
  | 0, _ => []
  | fuel + 1, l =>
    match l with
    | [] => []
    | _ :: rest =>
      match matchParamAt l with
      | some (name, g2, n) =>
        mkParam (l.take n) name g2 :: scanParams fuel (l.drop n)
      | none => scanParams fuel rest

/-- `_extract_params`.  Note that the fallback search for the closing
paren combines the (possibly adjusted) declaration line's paren column
with the original match offset, exactly as in the source. -/
def extract_params (source : List Char) (start_pos : Nat)
    (lines : List (List Char)) (start_line : Nat) : List BSLParam :=
  let declaration_line := lines.getD start_line []
  match declaration_line.findIdx? (fun c => c == '(') with
  | none => []
  | some ps =>
    let params_text? : Option (List Char) :=
      match findCharFrom declaration_line ')' (ps + 1) with
      | some pe => some ((declaration_line.drop (ps + 1)).take (pe - (ps + 1)))
      | none =>
        let search_start := start_pos + ps + 1
        match findCharFrom source ')' search_start with
        | some pp => some ((source.drop search_start).take (pp - search_start))
        | none => none
    match params_text? with
    | none => []
    | some params_text =>
      if (pyStripList params_text).isEmpty then []
      else scanParams (params_text.length + 1) params_text

/-- The collection loop of `_extract_description_before`; `lines.get? i`
models the unguarded `lines[i]` (an out-of-range index would raise). -/
def descLoop (lines : List (List Char)) :
    List Nat → List (List Char) → Option (List (List Char))
  | [], acc => some acc
  | i :: rest, acc =>
    match lines.get? i with
    | none => none
    | some raw =>
      let line := pyStripList raw
      if acc.isEmpty && line.isEmpty then descLoop lines rest acc
      else if startsWithChars "//".toList line then
        descLoop lines rest (acc ++ [pyStripList (line.drop 2)])
      else if listContainsSub "/*".toList line then
        if listContainsSub "*/".toList line then
          let a := (findSubIdx "/*".toList line).getD 0
          let b := (findSubIdx "*/".toList line).getD 0
          let comment := pyStripList ((line.drop (a + 2)).take (b - (a + 2)))
          if comment.isEmpty then descLoop lines rest acc
          else descLoop lines rest (acc ++ [comment])
        else descLoop lines rest acc
      else if !line.isEmpty then some acc
      else descLoop lines rest acc

/-- `_extract_description_before`: scan up to 20 lines above, collect the
comment block, reverse, join with newlines, strip. -/
def extract_description_before (lines : List (List Char)) (line_num : Nat) :
    Option String :=
  let start := line_num - 20
  (descLoop lines (List.range' start (line_num - start)) []).map
    (fun acc =>
      pyStrip (String.intercalate "\n" (acc.reverse.map String.mk)))

/-- One offset check of the `start_line` verification loop of
`_parse_method_from_match` (case-sensitive substring checks; out-of-range
offsets fail the `check_line < len(lines)` guard). -/
def verifyLineOk (lines : List (List Char)) (name : List Char)
    (check_line : Nat) : Bool :=
  match lines.get? check_line with
  | some lt =>
    listContainsSub name lt
      && (listContainsSub kwProc lt || listContainsSub kwFunc lt)
      && listContainsSub name lt
  | none => false

/-- The `start_line` verification loop (offsets 0..2, first hit wins). -/
def verifyStartLine (lines : List (List Char)) (name : List Char)
    (sl : Nat) : Nat :=
  if verifyLineOk lines name sl then sl
  else if verifyLineOk lines name (sl + 1) then sl + 1
  else if verifyLineOk lines name (sl + 2) then sl + 2
  else sl

/-- `_parse_method_from_match`.  The outer `Option` models a raised
exception (never hit, see the totality theorem); the inner `Option` is the
source's own `return None` when no method end is found. -/
def parseMethodFromMatch (source : List Char) (lines : List (List Char))
    (mt : Nat × String) (is_proc : Bool) : Option (Option BSLMethod) :=
  let method_name := mt.2
  let start_pos := mt.1
  let start_line0 := countNl (source.take start_pos)
  let start_line := verifyStartLine lines method_name.toList start_line0
  let declaration_line := lines.getD start_line []
  let context := extract_context declaration_line
  let is_export := searchExportWord declaration_line
  let params := extract_params source start_pos lines start_line
  match findMethodEnd source start_line is_proc with
  | none => some none
  | some end_line =>
    match extract_description_before lines start_line with
    | none => none
    | some description =>
      some (some ⟨method_name, start_line, end_line, is_proc, is_export,
        params, description, context, []⟩)

/-- `_parse_methods`: all procedure matches, then all function matches,
dropped when unterminated, then a stable sort by start line. -/
def parseMethods (source : List Char) (lines : List (List Char)) :
    Option (List BSLMethod) := do
  let procsRaw ← (finditerDecl kwProc source).mapM
    (fun mt => parseMethodFromMatch source lines mt true)
  let funcsRaw ← (finditerDecl kwFunc source).mapM
    (fun mt => parseMethodFromMatch source lines mt false)
  let methods := procsRaw.filterMap id ++ funcsRaw.filterMap id
  some (methods.mergeSort (fun a b => a.line ≤ b.line))

/-- `MODULE_VAR_PATTERN` attempted at a `^` anchor position:
`^\s*Перем\s+([а-яёА-ЯЁ\w]+)(?:\s+Экспорт)?\s*;` — returns the captured
name and the whole match length (used for the `Export` substring test). -/
def matchModuleVar (l : List Char) : Option (String × Nat) :=
  let n0 := countWhile isPySpace l
  let l0 := l.drop n0
  if matchIStr kwPerem l0 then
    let l1 := l0.drop kwPerem.length
    let ns := countWhile isPySpace l1
    if ns = 0 then none
    else
      let l2 := l1.drop ns
      let nw := countWhile isWordChar l2
      if nw = 0 then none
      else
        let name := String.mk (l2.take nw)
        let l3 := l2.drop nw
        let base := n0 + kwPerem.length + ns + nw
        let withExp :=
          let ns2 := countWhile isPySpace l3
          if 0 < ns2 && matchIStr kwExportTok (l3.drop ns2) then
            let l4 := l3.drop (ns2 + kwExportTok.length)
            let ns3 := countWhile isPySpace l4
            match l4.drop ns3 with
            | ';' :: _ =>
              some (name, base + ns2 + kwExportTok.length + ns3 + 1)
            | _ => none
          else none
        match withExp with
        | some r => some r
        | none =>
          let ns3 := countWhile isPySpace l3
          match l3.drop ns3 with
          | ';' :: _ => some (name, base + ns3 + 1)
          | _ => none
  else none

/-- `finditer` scan for module variables (same anchor discipline as the
declaration scan). -/
def scanModuleVars : Nat → Nat → Bool → List Char → List (Nat × String × Nat)
  | 0, _, _, _ => []
  | fuel + 1, pos, atLS, l =>
    match (if atLS then matchModuleVar l else none) with
    | some r =>
      (pos, r.1, r.2) :: scanModuleVars fuel (pos + r.2) false (l.drop r.2)
    | none =>
      match l with
      | [] => []
      | c :: rest => scanModuleVars fuel (pos + 1) (c == '\n') rest

/-- `_parse_module_vars`: build the (insertion-ordered, overwriting)
variables dict. -/
def parseModuleVars (source : List Char) (lines : List (List Char)) :
    Option (List (String × BSLModuleVar)) :=
  (scanModuleVars (source.length + 1) 0 true source).foldlM
    (fun d m => do
      let pos := m.1
      let var_name := m.2.1
      let var_text := (source.drop pos).take m.2.2
      let is_export := listContainsSub "Экспорт".toList var_text
        || listContainsSub "экспорт".toList var_text
      let var_line := countNl (source.take pos)
      let description ← extract_description_before lines var_line
      some (dictSet d var_name ⟨var_name, is_export, description⟩))
    []

/-- `CALL_PATTERN.finditer` over one line: `\b([а-яёА-ЯЁ\w]+)\s*\(`.
`prevW` tracks the word-boundary; after a failed attempt the scan resumes
at the end of the word run (no boundary exists inside it), after a match
just past the `(`. -/
def scanCallsGo : Nat → Nat → Bool → List Char → List (String × Nat)
  | 0, _, _, _ => []
  | fuel + 1, pos, prevW, l =>
    match l with
    | [] => []
    | c :: rest =>
      if !prevW && isWordChar c then
        let nw := countWhile isWordChar l
        let ns := countWhile isPySpace (l.drop nw)
        match l.drop (nw + ns) with
        | '(' :: _ =>
          (String.mk (l.take nw), pos) ::
            scanCallsGo fuel (pos + nw + ns + 1) false (l.drop (nw + ns + 1))
        | _ => scanCallsGo fuel (pos + nw) true (l.drop nw)
      else scanCallsGo fuel (pos + 1) (isWordChar c) rest

def findCallsInLine (line : List Char) : List (String × Nat) :=
  scanCallsGo (line.length + 1) 0 false line

/-- Is line `i` inside some method's `[line, endline]` range? -/
def inMethodRanges (methods : List BSLMethod) (i : Nat) : Bool :=
  methods.any (fun m => decide (m.line ≤ i) && decide (i ≤ m.endline))

/-- `_parse_global_calls`: keyword-filtered call matches on every line
outside all method ranges. -/
def parseGlobalCalls (lines : List (List Char)) (methods : List BSLMethod) :
    List BSLCallPosition :=
  (lines.enum).flatMap (fun le =>
    if inMethodRanges methods le.1 then []
    else
      (findCallsInLine le.2).filterMap (fun nc =>
        if KEYWORDS.contains (pyLower nc.1) then none
        else some ⟨nc.1, le.1, nc.2⟩))

/-- `_parse_method_calls`: keyword-filtered, self-name-excluded call
matches on the method's own lines. -/
def parseMethodCalls (lines : List (List Char)) (method : BSLMethod) :
    List BSLCallPosition :=
  let method_lines := (lines.drop method.line).take
    (method.endline + 1 - method.line)
  (method_lines.enum).flatMap (fun le =>
    let line_num := method.line + le.1
    (findCallsInLine le.2).filterMap (fun nc =>
      if KEYWORDS.contains (pyLower nc.1) then none
      else if nc.1 == method.name then none
      else some ⟨nc.1, line_num, nc.2⟩))

/-- The per-method `method.calls_position = self._parse_method_calls(...)`
assignment of the final loop of `parse`. -/
def attachCalls (lines : List (List Char)) (m : BSLMethod) : BSLMethod :=
  { m with calls_position := parseMethodCalls lines m }

/-- `BSLParser.parse`: module variables, methods, module-level calls,
then the per-method call positions.  The `Option` result models raised
exceptions (list indexing); the totality theorem shows it is always
`some`. -/
def parse (source : String) : Option BSLParseResult := do
  let src := source.toList
  let lines := splitNl src
  let module_vars ← parseModuleVars src lines
  let methods0 ← parseMethods src lines
  let global_calls := parseGlobalCalls lines methods0
  let methods := methods0.map (attachCalls lines)
  some ⟨methods, global_calls, module_vars⟩

end BSLParser

/-- A small concrete source for parser witnesses. -/
def parseDemoSrc : String :=
  "Процедура А()\nКонецПроцедуры\nБ(1);"

/-- The parse result of `parseDemoSrc`. -/
def parseDemoResult : BSLParseResult :=
  ⟨[⟨"А", 0, 1, true, false, [], "", "", []⟩], [⟨"Б", 2, 0⟩], []⟩

/-! ### Cache statistics file
(`BslLanguageServer._save_cache_stats`) -/

/-- The `cache_stats.json` document.  `bsl` is `none` when the block is
absent or empty (both falsy for the source's `existing.get("bsl")`
check). -/
structure CacheStatsFile where
  indexed_files : Nat
  language : String
  last_updated : String
  bsl : Option BslStats
deriving DecidableEq, Repr

/-- `_save_cache_stats` as a pure function.  `modified` is the
`_document_symbols_cache_is_modified` dirty flag; `inMem` is
`_local_cache.get_stats()`; `existing` is the parsed previous statistics
file (`none` when missing or unreadable, which the source treats alike);
`indexed_files`, `language` and `now` are the remaining observations.
The result is the document written, `none` when nothing is written. -/
def saveCacheStats (modified : Bool) (inMem : BslStats)
    (existing : Option CacheStatsFile) (indexed_files : Nat)
    (language now : String) : Option CacheStatsFile :=
  if !modified then none
  else
    let bsl_stats :=
      if inMem.methods = 0 then
        match existing with
        | some e =>
          match e.bsl with
          | some b => if 0 < b.methods then b else inMem
          | none => inMem
        | none => inMem
      else inMem
    some ⟨indexed_files, language, now, some bsl_stats⟩

/-! ## Theorems -/

/-! ### Newline normalisation and fingerprints (C4) -/

theorem replaceCR_no_cr (l : List Char) : '\r' ∉ replaceCR l := by
  simp only [replaceCR, List.mem_map]
  rintro ⟨c, _, hc⟩
  by_cases h : c = '\r'
  · simp [h] at hc
  · simp [h] at hc

theorem replaceCR_eq_of_no_cr (l : List Char) (h : '\r' ∉ l) :
    replaceCR l = l := by
  induction l with
  | nil => rfl
  | cons c rest ih =>
    have hc : c ≠ '\r' := fun e => h (e ▸ List.mem_cons_self c rest)
    have hr : '\r' ∉ rest := fun e => h (List.mem_cons_of_mem c e)
    simp [replaceCR, hc] at ih ⊢
    exact ih hr

theorem replaceCRLF_cons_ne (c : Char) (l : List Char) (hc : c ≠ '\r') :
    replaceCRLF (c :: l) = c :: replaceCRLF l :=
  replaceCRLF.eq_2 c l (fun _ h1 _ => hc h1)

theorem replaceCRLF_eq_of_no_cr : ∀ (l : List Char), '\r' ∉ l →
    replaceCRLF l = l
  | [], _ => rfl
  | c :: rest, h => by
    have hc : c ≠ '\r' := fun e => h (e ▸ List.mem_cons_self c rest)
    have hr : '\r' ∉ rest := fun e => h (List.mem_cons_of_mem c e)
    rw [replaceCRLF_cons_ne c rest hc, replaceCRLF_eq_of_no_cr rest hr]

theorem normNewlines_idem (l : List Char) :
    normNewlines (normNewlines l) = normNewlines l := by
  unfold normNewlines
  rw [replaceCRLF_eq_of_no_cr _ (replaceCR_no_cr _),
    replaceCR_eq_of_no_cr _ (replaceCR_no_cr _)]

theorem normString_idem (x : String) :
    normString (normString x) = normString x := by
  unfold normString
  exact congrArg String.mk (normNewlines_idem x.toList)

/-- C4 (amended): the full normalisation is idempotent, hence the
fingerprint is invariant under pre-applying the full normalisation; the
invariance claimed for the partial CR+LF-only replacement fails (see the
counterexample). -/
theorem C4_hash_norm_idempotent (x : String) :
    normString (normString x) = normString x
    ∧ computeFileHash (normString x)
        = computeFileHash (normString (normString x))
    ∧ computeFileHash (normString x) = computeFileHash x := by
  refine ⟨normString_idem x, ?_, ?_⟩
  · rw [normString_idem]
  · unfold computeFileHash
    rw [normString_idem]

/-- C9: while the in-memory symbol cache reports zero methods and a
previous statistics file has a `bsl` block with a non-zero method count,
the written file preserves that previous block; and nothing is written at
all when the document-symbols dirty flag is clear. -/
theorem C9_cache_stats_preserved (inMem : BslStats) (e : CacheStatsFile)
    (b : BslStats) (indexed_files : Nat) (language now : String)
    (hmem : inMem.methods = 0) (hb : e.bsl = some b) (hbm : 0 < b.methods) :
    saveCacheStats true inMem (some e) indexed_files language now
      = some ⟨indexed_files, language, now, some b⟩
    ∧ ∀ (inMem' : BslStats) (existing' : Option CacheStatsFile)
        (idx' : Nat) (lang' now' : String),
        saveCacheStats false inMem' existing' idx' lang' now' = none := by
  constructor
  · simp [saveCacheStats, hmem, hb, hbm]
  · intro inMem' existing' idx' lang' now'
    simp [saveCacheStats]

theorem C9_witness :
    (⟨0, 0, 0, 0, 0, 0⟩ : BslStats).methods = 0
    ∧ (⟨5, "bsl", "t0", some ⟨7, 1, 2, 3, 4, 5⟩⟩ : CacheStatsFile).bsl
        = some ⟨7, 1, 2, 3, 4, 5⟩
    ∧ 0 < (⟨7, 1, 2, 3, 4, 5⟩ : BslStats).methods
    ∧ (saveCacheStats true ⟨0, 0, 0, 0, 0, 0⟩
        (some ⟨5, "bsl", "t0", some ⟨7, 1, 2, 3, 4, 5⟩⟩) 9 "bsl" "t1"
        = some ⟨9, "bsl", "t1", some ⟨7, 1, 2, 3, 4, 5⟩⟩
      ∧ ∀ (inMem' : BslStats) (existing' : Option CacheStatsFile)
          (idx' : Nat) (lang' now' : String),
          saveCacheStats false inMem' existing' idx' lang' now' = none) :=
  ⟨rfl, rfl, by decide,
    C9_cache_stats_preserved ⟨0, 0, 0, 0, 0, 0⟩ ⟨5, "bsl", "t0", _⟩
      ⟨7, 1, 2, 3, 4, 5⟩ 9 "bsl" "t1" rfl rfl (by decide)⟩

/-! ### Supervisor: restart backoff and status (C1, C6) -/

/-- C6: each allowed restart attempt sleeps `min(2^n, 30)` seconds for
attempt `n` and succeeds; with the counter at 3 the attempt is refused;
the monitor loop then disables auto-restart; for a worker whose child dies
on every start, the three allowed attempts sleep 1, 2 and 4 seconds and
the fourth tick refuses and disables auto-restart. -/
theorem C6_restart_backoff :
    (∀ (s : ManagedServerProcess) (now : Nat) (lives : Bool),
        s.restart_count < 3 →
        s.restart now lives
          = ({ s with
                process := some ⟨!lives⟩,
                start_time := some now,
                restart_count := s.restart_count + 1 }, true,
             some (min (2 ^ s.restart_count) 30)))
    ∧ (∀ (s : ManagedServerProcess) (now : Nat) (lives : Bool),
        3 ≤ s.restart_count → s.restart now lives = (s, false, none))
    ∧ (∀ (s : ManagedServerProcess) (now : Nat),
        s.is_alive = false → s.auto_restart = true → 3 ≤ s.restart_count →
        MultiServerManager.monitorWorker s now false
          = ({ s with auto_restart := false }, none))
    ∧ ((MultiServerManager.monitorWorker mspCrash0 0 false).2 = some 1
      ∧ (MultiServerManager.monitorWorker
          (MultiServerManager.monitorWorker mspCrash0 0 false).1 0 false).2
            = some 2
      ∧ (MultiServerManager.monitorWorker (MultiServerManager.monitorWorker
          (MultiServerManager.monitorWorker mspCrash0 0 false).1 0 false).1
            0 false).2 = some 4
      ∧ (MultiServerManager.monitorWorker (MultiServerManager.monitorWorker
          (MultiServerManager.monitorWorker (MultiServerManager.monitorWorker
            mspCrash0 0 false).1 0 false).1 0 false).1 0 false).2 = none
      ∧ (MultiServerManager.monitorWorker (MultiServerManager.monitorWorker
          (MultiServerManager.monitorWorker (MultiServerManager.monitorWorker
            mspCrash0 0 false).1 0 false).1 0 false).1 0
            false).1.auto_restart = false) := by
  refine ⟨?_, ?_, ?_, by decide⟩
  · intro s now lives h
    have h3 : ¬ 3 ≤ s.restart_count := by omega
    simp [ManagedServerProcess.restart, ManagedServerProcess.stop,
      ManagedServerProcess.start, ManagedServerProcess.is_alive, h3]
  · intro s now lives h
    simp [ManagedServerProcess.restart, h]
  · intro s now halive har h3
    have halive' : ({ s with auto_restart := false } :
        ManagedServerProcess).is_alive = false := halive
    simp [MultiServerManager.monitorWorker, ManagedServerProcess.restart,
      h3, halive, har, halive']

theorem C6_witness :
    mspCrash0.restart_count < 3
    ∧ mspCrash0.restart 7 false
        = ({ mspCrash0 with
              process := some ⟨true⟩,
              start_time := some 7,
              restart_count := 1 }, true, some 1) :=
  ⟨by decide, by
    have h := C6_restart_backoff.1 mspCrash0 7 false (by decide)
    simpa using h⟩

/-- C1 (counterexample): a worker whose retry budget is exhausted and
whose monitor restart attempt fails keeps its dead process object, so its
status is "crashed", not the claimed "stopped"; moreover two states with
identical liveness and auto-restart flags report different statuses, so
status is not a function of those two alone. -/
theorem C1_counterexample :
    ((MultiServerManager.monitorWorker mspExhausted 0 false).1.auto_restart
        = false
      ∧ (MultiServerManager.monitorWorker mspExhausted 0 false).1.status
        = "crashed"
      ∧ (MultiServerManager.monitorWorker mspExhausted 0 false).1.status
        ≠ "stopped")
    ∧ (mspCrashedOff.is_alive = mspStoppedOff.is_alive
      ∧ mspCrashedOff.auto_restart = mspStoppedOff.auto_restart
      ∧ mspCrashedOff.status ≠ mspStoppedOff.status) := by
  decide

/-- C1 (amended): a worker whose retry budget is exhausted stays
registered (a monitor pass never changes the set of registered names)
with auto-restart disabled and status "crashed"; in general the status is
the function `statusOf` of child liveness and process-object retention
(auto-restart plays no role), taking values only in
{running, crashed, stopped}. -/
theorem C1_amended :
    (∀ (m : MultiServerManager) (now : Nat) (lives : String → Bool),
        (MultiServerManager.monitorPass m now lives).serverNames
          = m.serverNames)
    ∧ (∀ (s : ManagedServerProcess) (now : Nat),
        s.is_alive = false → s.process.isSome = true →
        s.auto_restart = true → 3 ≤ s.restart_count →
        (MultiServerManager.monitorWorker s now false).1.auto_restart = false
        ∧ (MultiServerManager.monitorWorker s now false).1.status
            = "crashed")
    ∧ (∀ s : ManagedServerProcess,
        s.status = MultiServerManager.statusOf s.is_alive s.process.isSome)
    ∧ (∀ s : ManagedServerProcess,
        s.status = "running" ∨ s.status = "crashed" ∨ s.status = "stopped") := by
  have hfn : ∀ s : ManagedServerProcess,
      s.status = MultiServerManager.statusOf s.is_alive s.process.isSome := by
    intro s
    rcases hp : s.process with _ | p
    · simp [ManagedServerProcess.status, ManagedServerProcess.is_alive,
        MultiServerManager.statusOf, hp]
    · rcases he : p.exited <;>
        simp [ManagedServerProcess.status, ManagedServerProcess.is_alive,
          MultiServerManager.statusOf, hp, he]
  refine ⟨?_, ?_, hfn, ?_⟩
  · intro m now lives
    simp [MultiServerManager.monitorPass, MultiServerManager.serverNames,
      List.map_map, Function.comp]
  · intro s now halive hsome har h3
    have halive' : ({ s with auto_restart := false } :
        ManagedServerProcess).is_alive = false := halive
    have hm : MultiServerManager.monitorWorker s now false
        = ({ s with auto_restart := false }, none) := by
      simp [MultiServerManager.monitorWorker, ManagedServerProcess.restart,
        h3, halive, har, halive']
    constructor
    · rw [hm]
    · rw [hm]
      have := hfn { s with auto_restart := false }
      rw [this]
      have h1 : ({ s with auto_restart := false } :
          ManagedServerProcess).is_alive = false := halive
      have h2 : ({ s with auto_restart := false } :
          ManagedServerProcess).process.isSome = true := hsome
      rw [h1, h2]
      rfl
  · intro s
    rw [hfn]
    rcases s.is_alive <;> rcases s.process.isSome <;>
      simp [MultiServerManager.statusOf]

theorem C1_witness :
    mspExhausted.is_alive = false
    ∧ mspExhausted.process.isSome = true
    ∧ mspExhausted.auto_restart = true
    ∧ 3 ≤ mspExhausted.restart_count
    ∧ ((MultiServerManager.monitorWorker mspExhausted 5
          false).1.auto_restart = false
      ∧ (MultiServerManager.monitorWorker mspExhausted 5 false).1.status
          = "crashed") :=
  ⟨rfl, rfl, rfl, by decide,
    C1_amended.2.1 mspExhausted 5 rfl rfl rfl (by decide)⟩

/-! ### Supervisor: add_server sequences (C2) -/

/-- C2 (counterexample): two successful `add_server` calls with distinct
names but the same explicit port leave duplicate ports — `add_server`
checks only name uniqueness, and no port-range constraint exists in the
supervisor. -/
theorem C2_counterexample :
    (MultiServerManager.runAdds MultiServerManager.emptyManager
       [⟨"a", "/pa", 9200, "sse", "0.0.0.0", none, [], none⟩,
        ⟨"b", "/pb", 9200, "sse", "0.0.0.0", none, [], none⟩]).map
      MultiServerManager.serverPorts = .ok [9200, 9200]
    ∧ ¬ ([9200, 9200] : List Nat).Nodup :=
  ⟨rfl, by decide⟩

/-- C2 (amended): after any sequence of `add_server` calls that all
succeed, the registered names are pairwise distinct; the ports are exactly
the requested ones appended in call order, with no duplicate check and no
range constraint. -/
theorem C2_amended (m m' : MultiServerManager)
    (reqs : List MultiServerManager.AddReq)
    (hnd : m.serverNames.Nodup)
    (h : MultiServerManager.runAdds m reqs = .ok m') :
    m'.serverNames.Nodup
    ∧ m'.serverPorts = m.serverPorts ++ reqs.map (fun r => r.port) := by
  induction reqs generalizing m with
  | nil =>
    simp [MultiServerManager.runAdds] at h
    subst h
    simp [hnd]
  | cons r rs ih =>
    by_cases hmem : r.name ∈ m.serverNames
    · simp [MultiServerManager.runAdds, MultiServerManager.add_server,
        hmem] at h
    · have hadd : m.add_server r.name r.path r.port r.transport r.host
          r.context r.modes r.log_level
          = .ok ⟨m.servers ++ [(r.name, ManagedServerProcess.mk0 r.name
              r.path r.port r.transport r.host r.context r.modes
              r.log_level)]⟩ := by
        simp [MultiServerManager.add_server, hmem]
      simp only [MultiServerManager.runAdds, hadd] at h
      have hnames : (⟨m.servers ++ [(r.name, ManagedServerProcess.mk0
          r.name r.path r.port r.transport r.host r.context r.modes
          r.log_level)]⟩ : MultiServerManager).serverNames
          = m.serverNames ++ [r.name] := by
        simp [MultiServerManager.serverNames]
      have hports : (⟨m.servers ++ [(r.name, ManagedServerProcess.mk0
          r.name r.path r.port r.transport r.host r.context r.modes
          r.log_level)]⟩ : MultiServerManager).serverPorts
          = m.serverPorts ++ [r.port] := by
        simp [MultiServerManager.serverPorts, ManagedServerProcess.mk0]
      have hnd1 : (⟨m.servers ++ [(r.name, ManagedServerProcess.mk0
          r.name r.path r.port r.transport r.host r.context r.modes
          r.log_level)]⟩ : MultiServerManager).serverNames.Nodup := by
        rw [hnames]
        simp [List.nodup_append, hnd, hmem]
      obtain ⟨h1, h2⟩ := ih _ hnd1 h
      refine ⟨h1, ?_⟩
      rw [h2, hports]
      simp

theorem C2_witness :
    MultiServerManager.emptyManager.serverNames.Nodup
    ∧ MultiServerManager.runAdds MultiServerManager.emptyManager
        [⟨"a", "/pa", 9200, "sse", "0.0.0.0", none, [], none⟩]
        = .ok mOneServer
    ∧ (mOneServer.serverNames.Nodup
      ∧ mOneServer.serverPorts
          = MultiServerManager.emptyManager.serverPorts ++ [9200]) :=
  ⟨by decide, rfl,
    C2_amended MultiServerManager.emptyManager mOneServer
      [⟨"a", "/pa", 9200, "sse", "0.0.0.0", none, [], none⟩]
      (by decide) rfl⟩

/-! ### Parser: method ordering (C10) -/

theorem parseMethods_sorted (src : List Char) (lines : List (List Char))
    (ms : List BSLMethod) (h : BSLParser.parseMethods src lines = some ms) :
    ms.Pairwise (fun a b => a.line ≤ b.line) := by
  unfold BSLParser.parseMethods at h
  cases h1 : (BSLParser.finditerDecl BSLParser.kwProc src).mapM
      (fun mt => BSLParser.parseMethodFromMatch src lines mt true) with
  | none => rw [h1] at h; simp at h
  | some procsRaw =>
    rw [h1] at h
    cases h2 : (BSLParser.finditerDecl BSLParser.kwFunc src).mapM
        (fun mt => BSLParser.parseMethodFromMatch src lines mt false) with
    | none => rw [h2] at h; simp at h
    | some funcsRaw =>
      rw [h2] at h
      have h' : some ((procsRaw.filterMap id
          ++ funcsRaw.filterMap id).mergeSort
            (fun a b => decide (a.line ≤ b.line))) = some ms := h
      injection h' with h''
      subst h''
      have hs := @List.sorted_mergeSort BSLMethod
        (fun a b => decide (a.line ≤ b.line))
        (fun a b c hab hbc => by
          simp only [decide_eq_true_eq] at hab hbc ⊢
          omega)
        (fun a b => by
          simp only [Bool.or_eq_true, decide_eq_true_eq]
          omega)
        (procsRaw.filterMap id ++ funcsRaw.filterMap id)
      exact hs.imp (fun hab => by simpa using hab)

/-- Dissection of a successful `parse`: the underlying pieces. -/
theorem parse_eq (source : String) (r : BSLParseResult)
    (h : BSLParser.parse source = some r) :
    ∃ mv ms0,
      BSLParser.parseModuleVars source.toList (splitNl source.toList)
        = some mv
      ∧ BSLParser.parseMethods source.toList (splitNl source.toList)
        = some ms0
      ∧ r = ⟨ms0.map (BSLParser.attachCalls (splitNl source.toList)),
          BSLParser.parseGlobalCalls (splitNl source.toList) ms0, mv⟩ := by
  have h0 : (BSLParser.parseModuleVars source.toList
      (splitNl source.toList)).bind
      (fun mv => (BSLParser.parseMethods source.toList
        (splitNl source.toList)).bind
        (fun ms0 => some (⟨ms0.map (BSLParser.attachCalls
            (splitNl source.toList)),
          BSLParser.parseGlobalCalls (splitNl source.toList) ms0, mv⟩ :
            BSLParseResult))) = some r := h
  cases hmv : BSLParser.parseModuleVars source.toList
      (splitNl source.toList) with
  | none => rw [hmv] at h0; simp at h0
  | some mv =>
    rw [hmv] at h0
    cases hms : BSLParser.parseMethods source.toList
        (splitNl source.toList) with
    | none => rw [hms] at h0; simp at h0
    | some ms0 =>
      rw [hms] at h0
      simp only [Option.some_bind, Option.some.injEq] at h0
      exact ⟨mv, ms0, rfl, rfl, h0.symm⟩

/-- C10: the methods list returned by `parse` is sorted by non-decreasing
start line, procedures and functions merged into one ordered sequence. -/
theorem C10_methods_sorted (source : String) (r : BSLParseResult)
    (h : BSLParser.parse source = some r) :
    r.methods.Pairwise (fun a b => a.line ≤ b.line) := by
  obtain ⟨mv, ms0, hmv, hms, hr⟩ := parse_eq source r h
  have hp := parseMethods_sorted source.toList (splitNl source.toList)
    ms0 hms
  subst hr
  simp only [List.pairwise_map]
  exact hp

unseal List.merge List.mergeSort in
theorem C10_witness :
    BSLParser.parse parseDemoSrc = some parseDemoResult
    ∧ parseDemoResult.methods.Pairwise (fun a b => a.line ≤ b.line) :=
  ⟨by decide, C10_methods_sorted parseDemoSrc parseDemoResult (by decide)⟩

/-! ### Parser: call-site filtering (C7) -/

theorem inMethodRanges_map_attach (lines : List (List Char))
    (ms : List BSLMethod) (i : Nat) :
    BSLParser.inMethodRanges (ms.map (BSLParser.attachCalls lines)) i
      = BSLParser.inMethodRanges ms i := by
  simp only [BSLParser.inMethodRanges, List.any_map]
  rfl

theorem not_mem_keywords_of_contains_false (s : String)
    (h : BSLParser.KEYWORDS.contains s = false) :
    s ∉ BSLParser.KEYWORDS := by
  intro hin
  have h2 : BSLParser.KEYWORDS.contains s = true := by simpa using hin
  rw [h2] at h
  simp at h

/-- C7: recorded call sites never carry a keyword name (compared through
`pyLower`); a method's own calls exclude its own name; module-level call
sites lie outside every method's line range, and every keyword-filtered
call match on an outside line is recorded. -/
theorem C7_call_site_filters (source : String) (r : BSLParseResult)
    (h : BSLParser.parse source = some r) :
    (∀ m ∈ r.methods, ∀ cp ∈ m.calls_position,
        pyLower cp.call ∉ BSLParser.KEYWORDS
        ∧ cp.call ≠ m.name
        ∧ m.line ≤ cp.line ∧ cp.line ≤ m.endline)
    ∧ (∀ cp ∈ r.global_calls,
        pyLower cp.call ∉ BSLParser.KEYWORDS
        ∧ BSLParser.inMethodRanges r.methods cp.line = false)
    ∧ (∀ le ∈ (splitNl source.toList).enum,
        BSLParser.inMethodRanges r.methods le.1 = false →
        ∀ nc ∈ BSLParser.findCallsInLine le.2,
          pyLower nc.1 ∉ BSLParser.KEYWORDS →
          (⟨nc.1, le.1, nc.2⟩ : BSLCallPosition) ∈ r.global_calls) := by
  obtain ⟨mv, ms0, hmv, hms, hr⟩ := parse_eq source r h
  subst hr
  refine ⟨?_, ?_, ?_⟩
  · intro m hm cp hcp
    obtain ⟨m0, hm0, rfl⟩ := List.mem_map.mp hm
    have hcp' : cp ∈ BSLParser.parseMethodCalls (splitNl source.toList)
        m0 := hcp
    obtain ⟨le, hle, hcp2⟩ := List.mem_flatMap.mp hcp'
    obtain ⟨nc, hnc, heq⟩ := List.mem_filterMap.mp hcp2
    simp at heq
    obtain ⟨hk1, hk2, hcpEq⟩ := heq
    subst hcpEq
    have hb := List.mem_enum hle
    have hlen : le.1 < m0.endline + 1 - m0.line := by
      have h1 := hb.1
      have h3 := List.length_take (m0.endline + 1 - m0.line)
        ((splitNl source.toList).drop m0.line)
      omega
    refine ⟨hk1, ?_, ?_, ?_⟩
    · intro hne
      exact hk2 (by simpa [BSLParser.attachCalls] using hne)
    · simp [BSLParser.attachCalls]
    · simp only [BSLParser.attachCalls]
      omega
  · intro cp hcp
    have hcp' : cp ∈ BSLParser.parseGlobalCalls (splitNl source.toList)
        ms0 := hcp
    obtain ⟨le, hle, hcp2⟩ := List.mem_flatMap.mp hcp'
    by_cases hin : BSLParser.inMethodRanges ms0 le.1 = true
    · simp [hin] at hcp2
    · simp only [hin, Bool.false_eq_true, if_false] at hcp2
      obtain ⟨nc, hnc, heq⟩ := List.mem_filterMap.mp hcp2
      simp at heq
      obtain ⟨hk1, hcpEq⟩ := heq
      subst hcpEq
      refine ⟨hk1, ?_⟩
      rw [inMethodRanges_map_attach]
      exact Bool.not_eq_true _ |>.mp hin
  · intro le hle hout nc hnc hk
    have hout' : BSLParser.inMethodRanges ms0 le.1 = false := by
      rw [inMethodRanges_map_attach] at hout
      exact hout
    refine List.mem_flatMap.mpr ⟨le, hle, ?_⟩
    rw [hout']
    simp only [Bool.false_eq_true, if_false]
    refine List.mem_filterMap.mpr ⟨nc, hnc, ?_⟩
    simp [hk]

unseal List.merge List.mergeSort in
theorem C7_witness :
    BSLParser.parse parseDemoSrc = some parseDemoResult
    ∧ ((∀ m ∈ parseDemoResult.methods, ∀ cp ∈ m.calls_position,
        pyLower cp.call ∉ BSLParser.KEYWORDS
        ∧ cp.call ≠ m.name
        ∧ m.line ≤ cp.line ∧ cp.line ≤ m.endline)
      ∧ (∀ cp ∈ parseDemoResult.global_calls,
          pyLower cp.call ∉ BSLParser.KEYWORDS
          ∧ BSLParser.inMethodRanges parseDemoResult.methods cp.line
              = false)
      ∧ (∀ le ∈ (splitNl parseDemoSrc.toList).enum,
          BSLParser.inMethodRanges parseDemoResult.methods le.1 = false →
          ∀ nc ∈ BSLParser.findCallsInLine le.2,
            pyLower nc.1 ∉ BSLParser.KEYWORDS →
            (⟨nc.1, le.1, nc.2⟩ : BSLCallPosition)
              ∈ parseDemoResult.global_calls)) :=
  ⟨by decide, C7_call_site_filters parseDemoSrc parseDemoResult (by decide)⟩

/-! ### Parser: totality (C8) -/

theorem splitNl_ne_nil : ∀ (l : List Char), splitNl l ≠ []
  | [] => by simp [splitNl]
  | c :: rest => by
    by_cases h : c = '\n'
    · simp [splitNl, h]
    · simp only [splitNl, h, if_false]
      cases hs : splitNl rest with
      | nil => simp
      | cons a as => simp

theorem splitNl_length : ∀ (l : List Char),
    (splitNl l).length = countNl l + 1
  | [] => rfl
  | c :: rest => by
    have ih := splitNl_length rest
    simp only [countNl, List.count_cons] at ih ⊢
    by_cases h : c = '\n'
    · simp [splitNl, h, ih]
    · have hne := splitNl_ne_nil rest
      cases hs : splitNl rest with
      | nil => exact absurd hs hne
      | cons a as =>
        rw [hs] at ih
        simp only [splitNl, h, if_false, hs]
        simp only [List.length_cons] at ih ⊢
        simp [h]
        omega

theorem countNl_take_le (l : List Char) (n : Nat) :
    countNl (l.take n) ≤ countNl l :=
  List.Sublist.count_le (List.take_sublist n l) '\n'

theorem descLoop_isSome (lines : List (List Char)) :
    ∀ (is : List Nat) (acc : List (List Char)),
      (∀ i ∈ is, i < lines.length) →
      (BSLParser.descLoop lines is acc).isSome = true
  | [], _, _ => rfl
  | i :: rest, acc, h => by
    have hi : i < lines.length := h i (List.mem_cons_self i rest)
    have hrest : ∀ j ∈ rest, j < lines.length :=
      fun j hj => h j (List.mem_cons_of_mem i hj)
    obtain ⟨lt, hlt⟩ : ∃ lt, lines.get? i = some lt := by
      cases hg : lines.get? i with
      | none =>
        have := List.get?_eq_none.mp hg
        omega
      | some lt => exact ⟨lt, rfl⟩
    unfold BSLParser.descLoop
    rw [hlt]
    dsimp only
    split_ifs <;>
      first
        | exact descLoop_isSome lines rest _ hrest
        | rfl

theorem extract_description_isSome (lines : List (List Char)) (n : Nat)
    (h : n ≤ lines.length) :
    (BSLParser.extract_description_before lines n).isSome = true := by
  have hall : ∀ i ∈ List.range' (n - 20) (n - (n - 20)), i < lines.length := by
    intro i hi
    obtain ⟨k, hk, hik⟩ := List.mem_range'.mp hi
    simp only [one_mul] at hik
    omega
  have hs := descLoop_isSome lines (List.range' (n - 20) (n - (n - 20))) [] hall
  obtain ⟨d, hd⟩ := Option.isSome_iff_exists.mp hs
  have heq : BSLParser.extract_description_before lines n
      = Option.map (fun acc => pyStrip (String.intercalate "\n"
          (acc.reverse.map String.mk)))
        (BSLParser.descLoop lines (List.range' (n - 20) (n - (n - 20)))
          []) := rfl
  rw [heq, hd]
  rfl

theorem verifyLineOk_lt (lines : List (List Char)) (nm : List Char)
    (i : Nat) (h : BSLParser.verifyLineOk lines nm i = true) :
    i < lines.length := by
  unfold BSLParser.verifyLineOk at h
  cases hg : lines.get? i with
  | none => rw [hg] at h; simp at h
  | some lt =>
    obtain ⟨hl, _⟩ := List.get?_eq_some.mp hg
    exact hl

theorem verifyStartLine_lt (lines : List (List Char)) (nm : List Char)
    (sl : Nat) (h : sl < lines.length) :
    BSLParser.verifyStartLine lines nm sl < lines.length := by
  unfold BSLParser.verifyStartLine
  split_ifs with h1 h2 h3
  · exact h
  · exact verifyLineOk_lt lines nm _ h2
  · exact verifyLineOk_lt lines nm _ h3
  · exact h

theorem parseMethodFromMatch_isSome (src : List Char) (mt : Nat × String)
    (p : Bool) :
    (BSLParser.parseMethodFromMatch src (splitNl src) mt p).isSome
      = true := by
  have h0 : countNl (src.take mt.1) < (splitNl src).length := by
    rw [splitNl_length]
    have := countNl_take_le src mt.1
    omega
  have h1 := verifyStartLine_lt (splitNl src) mt.2.toList
    (countNl (src.take mt.1)) h0
  simp only [BSLParser.parseMethodFromMatch]
  cases he : BSLParser.findMethodEnd src
      (BSLParser.verifyStartLine (splitNl src) mt.2.toList
        (countNl (src.take mt.1))) p with
  | none => rfl
  | some e =>
    have hd := extract_description_isSome (splitNl src)
      (BSLParser.verifyStartLine (splitNl src) mt.2.toList
        (countNl (src.take mt.1))) (le_of_lt h1)
    obtain ⟨d, hdd⟩ := Option.isSome_iff_exists.mp hd
    rw [hdd]
    rfl

theorem optionMapM_isSome {α β : Type} (f : α → Option β) :
    ∀ (l : List α), (∀ a ∈ l, (f a).isSome = true) →
      (l.mapM f).isSome = true
  | [], _ => rfl
  | a :: as, h => by
    rw [List.mapM_cons]
    obtain ⟨b, hb⟩ := Option.isSome_iff_exists.mp
      (h a (List.mem_cons_self a as))
    obtain ⟨bs, hbs⟩ := Option.isSome_iff_exists.mp
      (optionMapM_isSome f as (fun x hx => h x (List.mem_cons_of_mem a hx)))
    rw [hb, hbs]
    rfl

theorem optionFoldlM_isSome {σ α : Type} (f : σ → α → Option σ) :
    ∀ (l : List α) (d : σ), (∀ s a, a ∈ l → (f s a).isSome = true) →
      (l.foldlM f d).isSome = true
  | [], _, _ => rfl
  | a :: as, d, h => by
    obtain ⟨d2, hd⟩ := Option.isSome_iff_exists.mp
      (h d a (List.mem_cons_self a as))
    have step : (a :: as).foldlM f d = (f d a).bind
        (fun s2 => as.foldlM f s2) := rfl
    rw [step, hd]
    simp only [Option.some_bind]
    exact optionFoldlM_isSome f as d2
      (fun s x hx => h s x (List.mem_cons_of_mem a hx))

theorem bind_some_isSome {α β : Type} (o : Option α) (g : α → β)
    (h : o.isSome = true) :
    (o.bind (fun x => some (g x))).isSome = true := by
  obtain ⟨a, ha⟩ := Option.isSome_iff_exists.mp h
  rw [ha]
  rfl

theorem parseModuleVars_isSome (src : List Char) :
    (BSLParser.parseModuleVars src (splitNl src)).isSome = true := by
  unfold BSLParser.parseModuleVars
  apply optionFoldlM_isSome
  intro d m _
  have hvl : countNl (src.take m.1) < (splitNl src).length := by
    rw [splitNl_length]
    have := countNl_take_le src m.1
    omega
  have hd := extract_description_isSome (splitNl src)
    (countNl (src.take m.1)) (le_of_lt hvl)
  exact bind_some_isSome
    (BSLParser.extract_description_before (splitNl src)
      (countNl (src.take m.1)))
    (fun description => dictSet d m.2.1
      ⟨m.2.1, listContainsSub "Экспорт".toList ((src.drop m.1).take m.2.2)
        || listContainsSub "экспорт".toList ((src.drop m.1).take m.2.2),
        description⟩)
    hd

theorem parseMethods_isSome (src : List Char) :
    (BSLParser.parseMethods src (splitNl src)).isSome = true := by
  have h1 := optionMapM_isSome
    (fun mt => BSLParser.parseMethodFromMatch src (splitNl src) mt true)
    (BSLParser.finditerDecl BSLParser.kwProc src)
    (fun a _ => parseMethodFromMatch_isSome src a true)
  have h2 := optionMapM_isSome
    (fun mt => BSLParser.parseMethodFromMatch src (splitNl src) mt false)
    (BSLParser.finditerDecl BSLParser.kwFunc src)
    (fun a _ => parseMethodFromMatch_isSome src a false)
  obtain ⟨procs, hp⟩ := Option.isSome_iff_exists.mp h1
  obtain ⟨funcs, hf⟩ := Option.isSome_iff_exists.mp h2
  unfold BSLParser.parseMethods
  rw [hp, hf]
  rfl

/-- C8: `parse` is total — for every input string it returns a parse
result and raises no exception (the `Option` models the possible
`IndexError` of unguarded `lines[i]` indexing, and is always `some`). -/
theorem C8_parse_total (source : String) :
    (BSLParser.parse source).isSome = true := by
  have h1 := parseModuleVars_isSome source.toList
  have h2 := parseMethods_isSome source.toList
  obtain ⟨mv, hmv⟩ := Option.isSome_iff_exists.mp h1
  obtain ⟨ms, hms⟩ := Option.isSome_iff_exists.mp h2
  have h0 : BSLParser.parse source
      = (BSLParser.parseModuleVars source.toList
          (splitNl source.toList)).bind
        (fun mv => (BSLParser.parseMethods source.toList
            (splitNl source.toList)).bind
          (fun ms0 => some (⟨ms0.map (BSLParser.attachCalls
              (splitNl source.toList)),
            BSLParser.parseGlobalCalls (splitNl source.toList) ms0, mv⟩ :
              BSLParseResult))) := rfl
  rw [h0, hmv, hms]
  rfl

/-! ### Supervisor: name derivation (C5) -/

theorem decDigits_ne_nil (n : Nat) : decDigits n ≠ [] := by
  rw [decDigits]
  split_ifs <;> simp

theorem toDigitsCore_eq_decDigits : ∀ (fuel n : Nat) (ds : List Char),
    n < fuel → Nat.toDigitsCore 10 fuel n ds = decDigits n ++ ds
  | 0, n, ds, h => by omega
  | fuel + 1, n, ds, h => by
    show (if n / 10 = 0 then (n % 10).digitChar :: ds
      else Nat.toDigitsCore 10 fuel (n / 10) ((n % 10).digitChar :: ds))
        = decDigits n ++ ds
    by_cases h0 : n / 10 = 0
    · have hn : n < 10 := by omega
      rw [if_pos h0, decDigits]
      rw [if_pos hn, Nat.mod_eq_of_lt hn]
      rfl
    · have hn : ¬ n < 10 := by
        intro hlt
        exact h0 (Nat.div_eq_of_lt hlt)
      rw [if_neg h0, toDigitsCore_eq_decDigits fuel (n / 10)
        ((n % 10).digitChar :: ds) (by omega)]
      conv_rhs => rw [decDigits]
      rw [if_neg hn]
      simp

theorem toDigits_eq_decDigits (n : Nat) :
    Nat.toDigits 10 n = decDigits n := by
  have := toDigitsCore_eq_decDigits (n + 1) n [] (by omega)
  simpa [Nat.toDigits] using this

theorem digitVal_digitChar (d : Nat) (h : d < 10) :
    digitVal (Nat.digitChar d) = d := by
  interval_cases d <;> decide

theorem numOfDigits_append_single (xs : List Char) (c : Char) :
    numOfDigits (xs ++ [c]) = 10 * numOfDigits xs + digitVal c := by
  simp [numOfDigits, List.foldl_append]

theorem numOfDigits_decDigits (n : Nat) :
    numOfDigits (decDigits n) = n := by
  induction n using Nat.strong_induction_on with
  | _ n ih =>
    by_cases h : n < 10
    · rw [decDigits, if_pos h]
      simp [numOfDigits, digitVal_digitChar n h]
    · rw [decDigits, if_neg h]
      rw [numOfDigits_append_single]
      rw [ih (n / 10) (Nat.div_lt_self (by omega) (by omega))]
      rw [digitVal_digitChar (n % 10) (Nat.mod_lt n (by omega))]
      omega

theorem natRepr_inj {n m : Nat} (h : Nat.repr n = Nat.repr m) : n = m := by
  have hd : Nat.toDigits 10 n = Nat.toDigits 10 m := by
    have := congrArg String.data h
    simpa [Nat.repr, List.asString] using this
  rw [toDigits_eq_decDigits, toDigits_eq_decDigits] at hd
  have := congrArg numOfDigits hd
  rwa [numOfDigits_decDigits, numOfDigits_decDigits] at this

theorem reprData_ne_nil (k : Nat) : (Nat.repr k).data ≠ [] := by
  have : (Nat.repr k).data = decDigits k := by
    simp [Nat.repr, List.asString, toDigits_eq_decDigits]
  rw [this]
  exact decDigits_ne_nil k

theorem nameOf_inj (base : String) {j k : Nat} (hj : 1 ≤ j) (hk : 1 ≤ k)
    (hne : j ≠ k) :
    MultiServerManager.nameOf base j ≠ MultiServerManager.nameOf base k := by
  intro heq
  unfold MultiServerManager.nameOf at heq
  by_cases hj1 : j = 1
  · by_cases hk1 : k = 1
    · exact hne (hj1.trans hk1.symm)
    · rw [if_pos hj1, if_neg hk1] at heq
      have hd := congrArg String.data heq
      simp only [String.data_append] at hd
      have hlen := congrArg List.length hd
      have hne2 := reprData_ne_nil k
      simp at hlen
  · by_cases hk1 : k = 1
    · rw [if_neg hj1, if_pos hk1] at heq
      have hd := congrArg String.data heq
      simp only [String.data_append] at hd
      have hlen := congrArg List.length hd
      have hne2 := reprData_ne_nil j
      simp at hlen
    · rw [if_neg hj1, if_neg hk1] at heq
      have hdata := congrArg String.data heq
      simp only [String.data_append] at hdata
      have h2 := List.append_cancel_left hdata
      have := natRepr_inj (String.ext h2)
      exact hne this

theorem mem_namesList (base : String) {c k : Nat} (hc1 : 1 ≤ c) :
    MultiServerManager.nameOf base c ∈ MultiServerManager.namesList base k
      ↔ c ≤ k := by
  constructor
  · intro hin
    obtain ⟨i, hi, heq⟩ := List.mem_map.mp hin
    have hmem := List.mem_range.mp hi
    by_contra hgt
    exact nameOf_inj base (by omega) hc1 (by omega) heq
  · intro hle
    refine List.mem_map.mpr ⟨c - 1, List.mem_range.mpr (by omega), ?_⟩
    rw [show c - 1 + 1 = c from by omega]

theorem dedupGo_eq (base : String) (k : Nat) :
    ∀ (fuel c : Nat), 1 ≤ c → c ≤ k + 1 → k + 1 - c < fuel →
    MultiServerManager.dedupNameGo (MultiServerManager.namesList base k)
        base fuel (MultiServerManager.nameOf base c) c
      = MultiServerManager.nameOf base (k + 1)
  | 0, c, _, _, h => by omega
  | fuel + 1, c, hc1, hck, hfuel => by
    unfold MultiServerManager.dedupNameGo
    by_cases hmem : MultiServerManager.nameOf base c
        ∈ MultiServerManager.namesList base k
    · have hck2 : c ≤ k := (mem_namesList base hc1).mp hmem
      have hcont : (MultiServerManager.namesList base k).contains
          (MultiServerManager.nameOf base c) = true := by simpa using hmem
      rw [hcont]
      simp only [if_true]
      have hname : base ++ "_" ++ Nat.repr (c + 1)
          = MultiServerManager.nameOf base (c + 1) := by
        unfold MultiServerManager.nameOf
        rw [if_neg (by omega)]
      rw [hname]
      exact dedupGo_eq base k fuel (c + 1) (by omega) (by omega) (by omega)
    · have hcont : (MultiServerManager.namesList base k).contains
          (MultiServerManager.nameOf base c) = false := by
        cases hx : (MultiServerManager.namesList base k).contains
            (MultiServerManager.nameOf base c) with
        | false => rfl
        | true => exact absurd (by simpa using hx) hmem
      rw [hcont]
      simp only [Bool.false_eq_true, if_false]
      have hc : c = k + 1 := by
        by_contra hne
        exact hmem ((mem_namesList base hc1).mpr (by omega))
      rw [hc]

theorem dedupName_namesList (base : String) (k : Nat) :
    MultiServerManager.dedupName (MultiServerManager.namesList base k) base
      = MultiServerManager.nameOf base (k + 1) := by
  unfold MultiServerManager.dedupName
  have hlen : (MultiServerManager.namesList base k).length = k := by
    simp [MultiServerManager.namesList]
  rw [hlen]
  have h1 : MultiServerManager.nameOf base 1 = base := rfl
  rw [← h1]
  exact dedupGo_eq base k (k + 1) 1 (by omega) (by omega) (by omega)

theorem find_free_port_ok (m : MultiServerManager) :
    ∃ port, m.find_free_port (fun _ => true) = .ok port := by
  unfold MultiServerManager.find_free_port
  dsimp only
  rw [show (List.range 100).find? (fun i => true) = some 0 from rfl]
  exact ⟨_, rfl⟩

theorem getServer_none_iff (m : MultiServerManager) (n : String) :
    m.getServer n = none ↔ n ∉ m.serverNames := by
  simp only [MultiServerManager.getServer, MultiServerManager.serverNames,
    Option.map_eq_none', List.find?_eq_none, List.mem_map]
  constructor
  · intro h hex
    obtain ⟨x, hx, hfst⟩ := hex
    exact absurd (by simpa using hfst) (by simpa using h x hx)
  · intro h x hx hbeq
    exact h ⟨x, hx, by simpa using hbeq⟩

theorem updateServer_serverNames (m : MultiServerManager) (n : String)
    (f : ManagedServerProcess → ManagedServerProcess) :
    (m.updateServer n f).serverNames = m.serverNames := by
  unfold MultiServerManager.updateServer MultiServerManager.serverNames
  simp only [List.map_map]
  apply List.map_congr_left
  intro p _
  simp only [Function.comp]
  split <;> rfl

theorem add_server_ok (m : MultiServerManager) (nm path : String)
    (port : Nat) (t hs : String) (c : Option String) (mo : List String)
    (ll : Option String) (hmem : nm ∉ m.serverNames) :
    m.add_server nm path port t hs c mo ll
      = .ok ⟨m.servers ++
          [(nm, ManagedServerProcess.mk0 nm path port t hs c mo ll)]⟩ := by
  simp [MultiServerManager.add_server, hmem]

theorem start_server_ok (m : MultiServerManager) (nm : String)
    (now : Nat) (lives : Bool) (hmem : nm ∈ m.serverNames) :
    m.start_server nm now lives
      = .ok (m.updateServer nm
          (fun s => ({ s with auto_restart := true }).start now lives)) := by
  unfold MultiServerManager.start_server
  cases hg : m.getServer nm with
  | none => exact absurd hmem ((getServer_none_iff m nm).mp hg)
  | some s => rfl

theorem namesList_succ (base : String) (k : Nat) :
    MultiServerManager.namesList base (k + 1)
      = MultiServerManager.namesList base k
        ++ [MultiServerManager.nameOf base (k + 1)] := by
  simp [MultiServerManager.namesList, List.range_succ]

theorem addStart_step (m : MultiServerManager) (p base : String) (k : Nat)
    (hb : base ≠ "")
    (hbp : MultiServerManager.pyBasename
      (MultiServerManager.pyRstripSlashes p) = base)
    (hnames : m.serverNames = MultiServerManager.namesList base k) :
    ∃ m2 port,
      m.add_and_start_server p none none none [] none (fun _ => true) 0 true
        = .ok (m2, MultiServerManager.nameOf base (k + 1), port)
      ∧ m2.serverNames = MultiServerManager.namesList base (k + 1) := by
  obtain ⟨port, hport⟩ := find_free_port_ok m
  have hdedup : MultiServerManager.dedupName m.serverNames base
      = MultiServerManager.nameOf base (k + 1) := by
    rw [hnames]
    exact dedupName_namesList base k
  have hnotmem : MultiServerManager.nameOf base (k + 1)
      ∉ m.serverNames := by
    rw [hnames]
    intro hin
    have := (mem_namesList base (by omega)).mp hin
    omega
  have hadd := add_server_ok m (MultiServerManager.nameOf base (k + 1)) p
    port
    (match m.servers.head?.map Prod.snd with
      | some f => f.transport
      | none => "sse")
    (match m.servers.head?.map Prod.snd with
      | some f => f.host
      | none => "0.0.0.0")
    none [] none hnotmem
  have hm1names : (⟨m.servers ++ [(MultiServerManager.nameOf base (k + 1),
      ManagedServerProcess.mk0 (MultiServerManager.nameOf base (k + 1)) p
        port
        (match m.servers.head?.map Prod.snd with
          | some f => f.transport
          | none => "sse")
        (match m.servers.head?.map Prod.snd with
          | some f => f.host
          | none => "0.0.0.0")
        none [] none)]⟩ : MultiServerManager).serverNames
      = m.serverNames ++ [MultiServerManager.nameOf base (k + 1)] := by
    simp [MultiServerManager.serverNames]
  have hmem1 : MultiServerManager.nameOf base (k + 1)
      ∈ (⟨m.servers ++ [(MultiServerManager.nameOf base (k + 1),
        ManagedServerProcess.mk0 (MultiServerManager.nameOf base (k + 1)) p
          port
          (match m.servers.head?.map Prod.snd with
            | some f => f.transport
            | none => "sse")
          (match m.servers.head?.map Prod.snd with
            | some f => f.host
            | none => "0.0.0.0")
          none [] none)]⟩ : MultiServerManager).serverNames := by
    rw [hm1names]
    simp
  have hstart := start_server_ok _ (MultiServerManager.nameOf base (k + 1))
    0 true hmem1
  refine ⟨MultiServerManager.updateServer ⟨m.servers ++
      [(MultiServerManager.nameOf base (k + 1),
        ManagedServerProcess.mk0 (MultiServerManager.nameOf base (k + 1)) p
          port
          (match m.servers.head?.map Prod.snd with
            | some f => f.transport
            | none => "sse")
          (match m.servers.head?.map Prod.snd with
            | some f => f.host
            | none => "0.0.0.0")
          none [] none)]⟩
      (MultiServerManager.nameOf base (k + 1))
      (fun s => ({ s with auto_restart := true }).start 0 true),
    port, ?_, ?_⟩
  · unfold MultiServerManager.add_and_start_server
    rw [hbp]
    simp only [hb, if_false]
    rw [hdedup, hport]
    dsimp only
    rw [hadd]
    dsimp only
    rw [hstart]
  · rw [updateServer_serverNames, hm1names, hnames, namesList_succ]

theorem addStartSeq_names (base : String) (hb : base ≠ "") :
    ∀ (paths : List String) (k : Nat) (m : MultiServerManager),
      (∀ p ∈ paths, MultiServerManager.pyBasename
        (MultiServerManager.pyRstripSlashes p) = base) →
      m.serverNames = MultiServerManager.namesList base k →
      (MultiServerManager.addStartSeq m paths).map Prod.snd
        = .ok ((List.range paths.length).map
            (fun i => MultiServerManager.nameOf base (k + i + 1)))
  | [], k, m, _, _ => rfl
  | p :: ps, k, m, hp, hnames => by
    obtain ⟨m2, port, hstep, hnames2⟩ := addStart_step m p base k hb
      (hp p (List.mem_cons_self p ps)) hnames
    have ih := addStartSeq_names base hb ps (k + 1) m2
      (fun q hq => hp q (List.mem_cons_of_mem p hq)) hnames2
    unfold MultiServerManager.addStartSeq
    rw [hstep]
    dsimp only
    cases hrest : MultiServerManager.addStartSeq m2 ps with
    | error e =>
      rw [hrest] at ih
      simp [Except.map] at ih
    | ok rest =>
      rw [hrest] at ih
      simp only [Except.map, Except.ok.injEq] at ih
      simp only [Except.map, List.length_cons, Except.ok.injEq]
      rw [List.range_succ_eq_map, List.map_cons, List.map_map]
      congr 1
      rw [ih]
      apply List.map_congr_left
      intro i _
      exact congrArg (MultiServerManager.nameOf base) (by omega)

/-- C5: `add_and_start_server` called K times from an empty manager with
paths whose basenames all equal `base` yields the project names
`base, base_2, …, base_K`; the name `base_1` is never produced. -/
theorem C5_name_derivation (base : String) (paths : List String)
    (hb : base ≠ "")
    (hp : ∀ p ∈ paths, MultiServerManager.pyBasename
      (MultiServerManager.pyRstripSlashes p) = base) :
    (MultiServerManager.addStartSeq MultiServerManager.emptyManager
        paths).map Prod.snd
      = .ok ((List.range paths.length).map
          (fun i => MultiServerManager.nameOf base (i + 1)))
    ∧ (base ++ "_1") ∉ (List.range paths.length).map
        (fun i => MultiServerManager.nameOf base (i + 1)) := by
  constructor
  · have h0 : (MultiServerManager.emptyManager).serverNames
        = MultiServerManager.namesList base 0 := rfl
    have hrun := addStartSeq_names base hb paths 0
      MultiServerManager.emptyManager hp h0
    rw [hrun]
    congr 1
    apply List.map_congr_left
    intro i _
    exact congrArg (MultiServerManager.nameOf base) (by omega)
  · intro hin
    obtain ⟨i, hi, heq⟩ := List.mem_map.mp hin
    by_cases h1 : i = 0
    · subst h1
      rw [show MultiServerManager.nameOf base 1 = base from rfl] at heq
      have hd := congrArg String.data heq
      rw [String.data_append] at hd
      have hlen := congrArg List.length hd
      simp at hlen
    · have h2 : MultiServerManager.nameOf base (i + 1)
          = base ++ "_" ++ Nat.repr (i + 1) := by
        unfold MultiServerManager.nameOf
        rw [if_neg (by omega)]
      rw [h2] at heq
      have hd := congrArg String.data heq
      simp only [String.data_append] at hd
      rw [show (['_', '1'] : List Char) = ['_'] ++ ['1'] from rfl,
        ← List.append_assoc] at hd
      have h3 := List.append_cancel_left hd
      have h4 : Nat.repr (i + 1) = Nat.repr 1 := String.ext h3
      have := natRepr_inj h4
      omega

theorem C5_witness :
    ("proj" : String) ≠ ""
    ∧ (∀ p ∈ (["/x/proj", "/y/proj"] : List String),
        MultiServerManager.pyBasename
          (MultiServerManager.pyRstripSlashes p) = "proj")
    ∧ ((MultiServerManager.addStartSeq MultiServerManager.emptyManager
          ["/x/proj", "/y/proj"]).map Prod.snd
        = .ok ((List.range
            (["/x/proj", "/y/proj"] : List String).length).map
            (fun i => MultiServerManager.nameOf "proj" (i + 1)))
      ∧ ("proj" ++ "_1") ∉ (List.range
            (["/x/proj", "/y/proj"] : List String).length).map
            (fun i => MultiServerManager.nameOf "proj" (i + 1))) :=
  ⟨by decide, by decide,
    C5_name_derivation "proj" ["/x/proj", "/y/proj"] (by decide)
      (by decide)⟩

/-- C4 (counterexample): for `T = "\r\r\n\n"`, the fingerprint of `T` with
every CR+LF replaced by LF differs from the fingerprint of `T` with the
lone CRs also replaced (the fully normalised text): the left-to-right
`replace("\r\n", "\n")` creates a fresh CR+LF that the second replacement
smashes differently. -/
theorem C4_counterexample :
    computeFileHash (String.mk (replaceCRLF "\r\r\n\n".toList))
      ≠ computeFileHash (String.mk (normNewlines "\r\r\n\n".toList))
    ∧ computeFileHash (String.mk (normNewlines "\r\r\n\n".toList))
      = computeFileHash "\r\r\n\n" := by
  constructor
  · decide
  · decide

theorem mem_dictSet {α : Type} {k : String} {v : α} {kv : String × α} :
    ∀ {d : List (String × α)}, kv ∈ dictSet d k v → kv = (k, v) ∨ kv ∈ d := by
  intro d
  induction d with
  | nil => intro h; simpa [dictSet] using h
  | cons kv0 rest ih =>
    intro h
    by_cases hk : (kv0.1 == k) = true
    · rw [dictSet, if_pos hk] at h
      rcases List.mem_cons.mp h with h | h
      · exact Or.inl h
      · exact Or.inr (List.mem_cons_of_mem _ h)
    · rw [dictSet, if_neg hk] at h
      rcases List.mem_cons.mp h with h | h
      · exact Or.inr (h ▸ List.mem_cons_self _ _)
      · rcases ih h with h | h
        · exact Or.inl h
        · exact Or.inr (List.mem_cons_of_mem _ h)

theorem find_dictSet_self {α : Type} (k : String) (v : α) :
    ∀ (d : List (String × α)),
      (dictSet d k v).find? (fun kv => kv.1 == k) = some (k, v) := by
  intro d
  induction d with
  | nil => simp [dictSet, List.find?]
  | cons kv0 rest ih =>
    by_cases hk : (kv0.1 == k) = true
    · rw [dictSet, if_pos hk]
      simp [List.find?]
    · rw [dictSet, if_neg hk]
      rw [List.find?_cons]
      simp only [hk]
      exact ih

theorem find_dictSet_ne {α : Type} {k k' : String} (v : α) (hne : k' ≠ k) :
    ∀ (d : List (String × α)),
      (dictSet d k v).find? (fun kv => kv.1 == k')
        = d.find? (fun kv => kv.1 == k') := by
  have hkk : ((k, v).1 == k') = false := by
    simp only [beq_eq_false_iff_ne]
    exact fun h => hne h.symm
  intro d
  induction d with
  | nil =>
    rw [dictSet]
    rw [List.find?_cons]
    simp only [hkk]
  | cons kv0 rest ih =>
    by_cases hk : (kv0.1 == k) = true
    · rw [dictSet, if_pos hk]
      rw [List.find?_cons, List.find?_cons]
      have h0 : (kv0.1 == k') = false := by
        simp only [beq_eq_false_iff_ne]
        intro h
        exact hne (h ▸ (beq_iff_eq.mp hk))
      simp only [hkk, h0]
    · rw [dictSet, if_neg hk]
      rw [List.find?_cons, List.find?_cons]
      cases h0 : (kv0.1 == k') with
      | true => rfl
      | false => exact ih

theorem dictGetD_dictSet_self {α : Type} (d : List (String × α))
    (k : String) (v : α) (dflt : α) :
    dictGetD (dictSet d k v) k dflt = v := by
  rw [dictGetD, find_dictSet_self]

theorem dictGetD_dictSet_ne {α : Type} (d : List (String × α))
    {k k' : String} (v : α) (dflt : α) (hne : k' ≠ k) :
    dictGetD (dictSet d k v) k' dflt = dictGetD d k' dflt := by
  rw [dictGetD, dictGetD, find_dictSet_ne v hne]

theorem mem_of_dictGetD_ne {α : Type} {d : List (String × α)} {k : String}
    {dflt : α} (h : dictGetD d k dflt ≠ dflt) :
    (k, dictGetD d k dflt) ∈ d := by
  rw [dictGetD] at h ⊢
  cases hf : d.find? (fun kv => kv.1 == k) with
  | none => rw [hf] at h; exact absurd rfl h
  | some kv =>
    rw [hf] at h
    have h1 : (kv.1 == k) = true := by simpa using List.find?_some hf
    have h2 : kv ∈ d := List.mem_of_find?_eq_some hf
    have h3 : (k, kv.2) = kv := by
      have := beq_iff_eq.mp h1
      cases kv
      simp_all
    show (k, kv.2) ∈ d
    rw [h3]
    exact h2

theorem keys_dictSet_nodup {α : Type} (k : String) (v : α) :
    ∀ {d : List (String × α)}, (d.map Prod.fst).Nodup →
      ((dictSet d k v).map Prod.fst).Nodup := by
  intro d
  induction d with
  | nil => intro _; simp [dictSet]
  | cons kv0 rest ih =>
    intro h
    rw [List.map_cons, List.nodup_cons] at h
    by_cases hk : (kv0.1 == k) = true
    · rw [dictSet, if_pos hk]
      rw [List.map_cons, List.nodup_cons]
      refine ⟨?_, h.2⟩
      have := beq_iff_eq.mp hk
      rw [← this]
      exact h.1
    · rw [dictSet, if_neg hk]
      rw [List.map_cons, List.nodup_cons]
      refine ⟨?_, ih h.2⟩
      intro hmem
      rcases List.mem_map.mp hmem with ⟨kv', hkv', hfst⟩
      rcases mem_dictSet hkv' with h' | h'
      · rw [h'] at hfst
        exact hk (by simp [← hfst])
      · exact h.1 (List.mem_map.mpr ⟨kv', h', hfst⟩)

theorem mem_dictPop_ne {α : Type} {f : String} :
    ∀ {d : List (String × α)}, (d.map Prod.fst).Nodup →
      ∀ kv ∈ dictPop d f, kv.1 ≠ f := by
  intro d
  induction d with
  | nil => intro _ kv h; simp [dictPop] at h
  | cons kv0 rest ih =>
    intro h kv hkv
    rw [List.map_cons, List.nodup_cons] at h
    rw [dictPop, List.eraseP_cons] at hkv
    cases h0 : (kv0.1 == f) with
    | true =>
      rw [h0, cond_true] at hkv
      intro heq
      apply h.1
      apply List.mem_map.mpr
      exact ⟨kv, hkv, by rw [heq, ← beq_iff_eq.mp h0]⟩
    | false =>
      rw [h0, cond_false] at hkv
      rcases List.mem_cons.mp hkv with h' | h'
      · rw [h']
        exact beq_eq_false_iff_ne.mp h0
      · exact ih h.2 kv h'

theorem dictPop_sublist {α : Type} (d : List (String × α)) (f : String) :
    List.Sublist (dictPop d f) d :=
  List.eraseP_sublist d

theorem foldl_dictPop_sublist {α : Type} :
    ∀ (ks : List String) (d : List (String × α)),
      List.Sublist (ks.foldl (fun d k => dictPop d k) d) d := by
  intro ks
  induction ks with
  | nil => intro d; exact List.Sublist.refl d
  | cons k ks ih =>
    intro d
    rw [List.foldl_cons]
    exact (ih (dictPop d k)).trans (dictPop_sublist d k)

theorem foldl_dictPop_not_mem {α : Type} :
    ∀ (ks : List String) (d : List (String × α)),
      (d.map Prod.fst).Nodup →
      ∀ kv ∈ ks.foldl (fun d k => dictPop d k) d, kv.1 ∉ ks := by
  intro ks
  induction ks with
  | nil => intro d _ kv _; simp
  | cons k ks ih =>
    intro d hnd kv hkv
    rw [List.foldl_cons] at hkv
    have hnd' : ((dictPop d k).map Prod.fst).Nodup :=
      ((dictPop_sublist d k).map Prod.fst).nodup hnd
    have h1 : kv.1 ∉ ks := ih (dictPop d k) hnd' kv hkv
    have h2 : kv ∈ dictPop d k :=
      (foldl_dictPop_sublist ks (dictPop d k)).subset hkv
    have h3 : kv.1 ≠ k := mem_dictPop_ne hnd kv h2
    intro hmem
    rcases List.mem_cons.mp hmem with h | h
    · exact h3 h
    · exact h1 h

theorem foldl_eraseIdx_map_succ {α : Type} (a : α) :
    ∀ (l : List Nat) (xs : List α),
      (l.map Nat.succ).foldl (fun ms i => ms.eraseIdx i) (a :: xs)
        = a :: l.foldl (fun ms i => ms.eraseIdx i) xs := by
  intro l
  induction l with
  | nil => intro xs; rfl
  | cons i l ih =>
    intro xs
    rw [List.map_cons, List.foldl_cons, List.foldl_cons]
    exact ih (xs.eraseIdx i)

theorem eraseLoop_eq_filter {α : Type} (p : α → Bool) :
    ∀ (ms : List α),
      (((List.range ms.length).filter (fun i =>
          ((ms.get? i).map p).getD false)).reverse).foldl
        (fun l i => l.eraseIdx i) ms
        = ms.filter (fun x => !(p x)) := by
  intro ms
  induction ms with
  | nil => rfl
  | cons a tl ih =>
    have hQ : (fun i => (((a :: tl).get? i).map p).getD false) ∘ Nat.succ
      = (fun i => ((tl.get? i).map p).getD false) := rfl
    have hQs : ((List.range (a :: tl).length).filter (fun i =>
        (((a :: tl).get? i).map p).getD false))
      = (if p a then [0] else []) ++
        List.map Nat.succ ((List.range tl.length).filter (fun i =>
          ((tl.get? i).map p).getD false)) := by
      rw [List.length_cons, List.range_succ_eq_map, List.filter_cons,
        List.filter_map, hQ]
      have h0 : ((((a :: tl).get? 0).map p).getD false) = p a := rfl
      rw [h0]
      by_cases hpa : p a = true
      · rw [if_pos hpa, if_pos hpa]
        rfl
      · rw [if_neg hpa, if_neg hpa]
        rfl
    rw [hQs]
    by_cases hpa : p a = true
    · rw [if_pos hpa, List.reverse_append, ← List.map_reverse,
        List.foldl_append, foldl_eraseIdx_map_succ, ih]
      rw [List.filter_cons_of_neg]
      · rfl
      · simp [hpa]
    · rw [if_neg hpa, List.reverse_append, ← List.map_reverse,
        List.foldl_append, foldl_eraseIdx_map_succ, ih]
      rw [List.filter_cons_of_pos]
      · rfl
      · simp only [Bool.not_eq_true] at hpa
        simp [hpa]

theorem rebuild_inv :
    ∀ (L : List (Nat × BSLMethodInfo))
      (acc : List (String × List Nat) × List (String × List Nat) × List Nat)
      (S : List (Nat × BSLMethodInfo)),
      (∀ kv ∈ acc.1, ∀ i ∈ kv.2,
        ∃ mi, (i, mi) ∈ S ∧ pyLower mi.method.name = kv.1) →
      (∀ kv ∈ acc.2.1, ∀ i ∈ kv.2,
        ∃ mi, (i, mi) ∈ S ∧ mi.module ≠ "" ∧ pyLower mi.module = kv.1) →
      (∀ i ∈ acc.2.2, ∃ mi, (i, mi) ∈ S ∧ mi.method.is_export = true) →
      (∀ im ∈ S,
        im.1 ∈ dictGetD acc.1 (pyLower im.2.method.name) []
        ∧ (im.2.module ≠ "" →
            im.1 ∈ dictGetD acc.2.1 (pyLower im.2.module) [])
        ∧ (im.2.method.is_export = true → im.1 ∈ acc.2.2)) →
      ((∀ kv ∈ (L.foldl BSLCache.rebuildStep acc).1, ∀ i ∈ kv.2,
        ∃ mi, (i, mi) ∈ S ++ L ∧ pyLower mi.method.name = kv.1)
      ∧ (∀ kv ∈ (L.foldl BSLCache.rebuildStep acc).2.1, ∀ i ∈ kv.2,
        ∃ mi, (i, mi) ∈ S ++ L ∧ mi.module ≠ "" ∧ pyLower mi.module = kv.1)
      ∧ (∀ i ∈ (L.foldl BSLCache.rebuildStep acc).2.2,
        ∃ mi, (i, mi) ∈ S ++ L ∧ mi.method.is_export = true)
      ∧ (∀ im ∈ S ++ L,
        im.1 ∈ dictGetD (L.foldl BSLCache.rebuildStep acc).1
          (pyLower im.2.method.name) []
        ∧ (im.2.module ≠ "" →
            im.1 ∈ dictGetD (L.foldl BSLCache.rebuildStep acc).2.1
              (pyLower im.2.module) [])
        ∧ (im.2.method.is_export = true →
            im.1 ∈ (L.foldl BSLCache.rebuildStep acc).2.2))) := by
  intro L
  induction L with
  | nil =>
    intro acc S h1 h2 h3 h4
    simp only [List.foldl_nil, List.append_nil]
    exact ⟨h1, h2, h3, h4⟩
  | cons im L ih =>
    intro acc S h1 h2 h3 h4
    obtain ⟨i, mi⟩ := im
    rw [List.foldl_cons]
    have key : S ++ (i, mi) :: L = (S ++ [(i, mi)]) ++ L := by simp
    rw [key]
    have hacc1 : (BSLCache.rebuildStep acc (i, mi)).1
        = dictSet acc.1 (pyLower mi.method.name)
            (dictGetD acc.1 (pyLower mi.method.name) [] ++ [i]) := rfl
    have hacc2 : (BSLCache.rebuildStep acc (i, mi)).2.1
        = if mi.module ≠ "" then
            dictSet acc.2.1 (pyLower mi.module)
              (dictGetD acc.2.1 (pyLower mi.module) [] ++ [i])
          else acc.2.1 := rfl
    have hacc3 : (BSLCache.rebuildStep acc (i, mi)).2.2
        = if mi.method.is_export then acc.2.2 ++ [i] else acc.2.2 := rfl
    apply ih (BSLCache.rebuildStep acc (i, mi)) (S ++ [(i, mi)])
    · intro kv hkv j hj
      rw [hacc1] at hkv
      rcases mem_dictSet hkv with hkv | hkv
      · rw [hkv] at hj ⊢
        rcases List.mem_append.mp hj with hj | hj
        · have hne : dictGetD acc.1 (pyLower mi.method.name) [] ≠ [] := by
            intro h0
            rw [h0] at hj
            exact absurd hj (List.not_mem_nil j)
          rcases h1 _ (mem_of_dictGetD_ne hne) j hj with ⟨mi', hmi', hname⟩
          exact ⟨mi', List.mem_append_left _ hmi', hname⟩
        · have hji : j = i := by simpa using hj
          subst hji
          exact ⟨mi, List.mem_append_right _ (by simp), rfl⟩
      · rcases h1 kv hkv j hj with ⟨mi', hmi', hname⟩
        exact ⟨mi', List.mem_append_left _ hmi', hname⟩
    · intro kv hkv j hj
      rw [hacc2] at hkv
      by_cases hm : mi.module = ""
      · rw [if_neg (fun h => h hm)] at hkv
        rcases h2 kv hkv j hj with ⟨mi', hmi', hmod, hname⟩
        exact ⟨mi', List.mem_append_left _ hmi', hmod, hname⟩
      · rw [if_pos hm] at hkv
        rcases mem_dictSet hkv with hkv | hkv
        · rw [hkv] at hj ⊢
          rcases List.mem_append.mp hj with hj | hj
          · have hne : dictGetD acc.2.1 (pyLower mi.module) [] ≠ [] := by
              intro h0
              rw [h0] at hj
              exact absurd hj (List.not_mem_nil j)
            rcases h2 _ (mem_of_dictGetD_ne hne) j hj with
              ⟨mi', hmi', hmod, hname⟩
            exact ⟨mi', List.mem_append_left _ hmi', hmod, hname⟩
          · have hji : j = i := by simpa using hj
            subst hji
            exact ⟨mi, List.mem_append_right _ (by simp), hm, rfl⟩
        · rcases h2 kv hkv j hj with ⟨mi', hmi', hmod, hname⟩
          exact ⟨mi', List.mem_append_left _ hmi', hmod, hname⟩
    · intro j hj
      rw [hacc3] at hj
      cases hexp : mi.method.is_export with
      | true =>
        rw [if_pos hexp] at hj
        rcases List.mem_append.mp hj with hj | hj
        · rcases h3 j hj with ⟨mi', hmi', he⟩
          exact ⟨mi', List.mem_append_left _ hmi', he⟩
        · have hji : j = i := by simpa using hj
          subst hji
          exact ⟨mi, List.mem_append_right _ (by simp), hexp⟩
      | false =>
        rw [if_neg (by simp [hexp])] at hj
        rcases h3 j hj with ⟨mi', hmi', he⟩
        exact ⟨mi', List.mem_append_left _ hmi', he⟩
    · intro im' him'
      rcases List.mem_append.mp him' with him' | him'
      · obtain ⟨g1, g2, g3⟩ := h4 im' him'
        refine ⟨?_, ?_, ?_⟩
        · rw [hacc1]
          by_cases hk : pyLower im'.2.method.name = pyLower mi.method.name
          · rw [hk, dictGetD_dictSet_self]
            exact List.mem_append_left _ (hk ▸ g1)
          · rw [dictGetD_dictSet_ne _ _ _ hk]
            exact g1
        · intro hmod'
          rw [hacc2]
          by_cases hm : mi.module = ""
          · rw [if_neg (fun h => h hm)]
            exact g2 hmod'
          · rw [if_pos hm]
            by_cases hk : pyLower im'.2.module = pyLower mi.module
            · rw [hk, dictGetD_dictSet_self]
              exact List.mem_append_left _ (hk ▸ g2 hmod')
            · rw [dictGetD_dictSet_ne _ _ _ hk]
              exact g2 hmod'
        · intro hexp'
          rw [hacc3]
          cases hexp : mi.method.is_export with
          | true =>
            rw [if_pos rfl]
            exact List.mem_append_left _ (g3 hexp')
          | false =>
            rw [if_neg (by simp)]
            exact g3 hexp'
      · have him'' : im' = (i, mi) := by simpa using him'
        subst him''
        refine ⟨?_, ?_, ?_⟩
        · rw [hacc1]
          show i ∈ dictGetD (dictSet acc.1 (pyLower mi.method.name)
            (dictGetD acc.1 (pyLower mi.method.name) [] ++ [i]))
            (pyLower mi.method.name) []
          rw [dictGetD_dictSet_self]
          simp
        · intro hmod'
          rw [hacc2, if_pos (show mi.module ≠ "" from hmod')]
          show i ∈ dictGetD (dictSet acc.2.1 (pyLower mi.module)
            (dictGetD acc.2.1 (pyLower mi.module) [] ++ [i]))
            (pyLower mi.module) []
          rw [dictGetD_dictSet_self]
          simp
        · intro hexp'
          rw [hacc3, if_pos (show mi.method.is_export = true from hexp')]
          simp

theorem rebuildIndices_valid (ms : List BSLMethodInfo) :
    (∀ kv ∈ (BSLCache.rebuildIndices ms).1, ∀ i ∈ kv.2,
      ∃ mi, ms.get? i = some mi ∧ pyLower mi.method.name = kv.1)
    ∧ (∀ kv ∈ (BSLCache.rebuildIndices ms).2.1, ∀ i ∈ kv.2,
      ∃ mi, ms.get? i = some mi ∧ mi.module ≠ "" ∧ pyLower mi.module = kv.1)
    ∧ (∀ i ∈ (BSLCache.rebuildIndices ms).2.2,
      ∃ mi, ms.get? i = some mi ∧ mi.method.is_export = true)
    ∧ (∀ i mi, ms.get? i = some mi →
      i ∈ dictGetD (BSLCache.rebuildIndices ms).1 (pyLower mi.method.name) []
      ∧ (mi.module ≠ "" →
          i ∈ dictGetD (BSLCache.rebuildIndices ms).2.1 (pyLower mi.module) [])
      ∧ (mi.method.is_export = true →
          i ∈ (BSLCache.rebuildIndices ms).2.2)) := by
  have henum : ∀ (i : Nat) (mi : BSLMethodInfo),
      (i, mi) ∈ ms.enum ↔ ms.get? i = some mi := by
    intro i mi
    rw [List.get?_eq_getElem?]
    exact List.mem_enum_iff_getElem?
  obtain ⟨g1, g2, g3, g4⟩ := rebuild_inv ms.enum ([], [], []) []
    (by intro kv hkv; exact absurd hkv (List.not_mem_nil kv))
    (by intro kv hkv; exact absurd hkv (List.not_mem_nil kv))
    (by intro j hj; exact absurd hj (List.not_mem_nil j))
    (by intro im him; exact absurd him (List.not_mem_nil im))
  rw [List.nil_append] at g1 g2 g3 g4
  refine ⟨?_, ?_, ?_, ?_⟩
  · intro kv hkv j hj
    rcases g1 kv hkv j hj with ⟨mi, hmem, hname⟩
    exact ⟨mi, (henum j mi).mp hmem, hname⟩
  · intro kv hkv j hj
    rcases g2 kv hkv j hj with ⟨mi, hmem, hmod, hname⟩
    exact ⟨mi, (henum j mi).mp hmem, hmod, hname⟩
  · intro j hj
    rcases g3 j hj with ⟨mi, hmem, he⟩
    exact ⟨mi, (henum j mi).mp hmem, he⟩
  · intro i mi hx
    exact g4 (i, mi) ((henum i mi).mpr hx)

theorem IndexValid_rebuilt (c : BSLCache)
    (h1 : c.method_name_index = (BSLCache.rebuildIndices c.methods).1)
    (h2 : c.method_module_index = (BSLCache.rebuildIndices c.methods).2.1)
    (h3 : c.method_export_index = (BSLCache.rebuildIndices c.methods).2.2) :
    c.IndexValid := by
  obtain ⟨g1, g2, g3, g4⟩ := rebuildIndices_valid c.methods
  refine ⟨?_, ?_, ?_, ?_⟩
  · rw [h1]; exact g1
  · rw [h2]; exact g2
  · rw [h3]; exact g3
  · intro i mi hx
    obtain ⟨a, b, d⟩ := g4 i mi hx
    refine ⟨?_, ?_, ?_⟩
    · rw [h1]; exact a
    · intro hm; rw [h2]; exact b hm
    · intro he; rw [h3]; exact d he

theorem remove_IndexValid (c : BSLCache) (f : String) :
    (c.remove_file_data f).IndexValid := by
  apply IndexValid_rebuilt <;> rfl

theorem get?_concat_inv {α : Type} {l : List α} {a x : α} {i : Nat}
    (h : (l ++ [a]).get? i = some x) :
    l.get? i = some x ∨ (i = l.length ∧ x = a) := by
  by_cases hi : i < l.length
  · left
    rw [← List.get?_append hi]
    exact h
  · right
    have hlen : i < (l ++ [a]).length := by
      rcases List.get?_eq_some.mp h with ⟨hh, _⟩
      exact hh
    rw [List.length_append] at hlen
    simp only [List.length_cons, List.length_nil] at hlen
    have hieq : i = l.length := by omega
    subst hieq
    rw [List.get?_concat_length] at h
    exact ⟨rfl, (Option.some.inj h).symm⟩

theorem addMethodCore_IndexValid (c : BSLCache) (method : BSLMethod)
    (filename module : String) (h : c.IndexValid) :
    (BSLCache.addMethodCore c method filename module).IndexValid := by
  obtain ⟨h1, h2, h3, h4⟩ := h
  have hms : (BSLCache.addMethodCore c method filename module).methods
      = c.methods ++ [⟨method, filename, module⟩] := rfl
  have hn : (BSLCache.addMethodCore c method filename
        module).method_name_index
      = dictSet c.method_name_index (pyLower method.name)
          (dictGetD c.method_name_index (pyLower method.name) []
            ++ [c.methods.length]) := rfl
  have hm : (BSLCache.addMethodCore c method filename
        module).method_module_index
      = (if module ≠ "" then
          dictSet c.method_module_index (pyLower module)
            (dictGetD c.method_module_index (pyLower module) []
              ++ [c.methods.length])
        else c.method_module_index) := rfl
  have he : (BSLCache.addMethodCore c method filename
        module).method_export_index
      = (if method.is_export then c.method_export_index
            ++ [c.methods.length]
        else c.method_export_index) := rfl
  have hlift : ∀ (i : Nat) (mi' : BSLMethodInfo),
      c.methods.get? i = some mi' →
      (c.methods ++ [(⟨method, filename, module⟩ : BSLMethodInfo)]).get? i
        = some mi' := by
    intro i mi' hx
    rcases List.get?_eq_some.mp hx with ⟨hh, _⟩
    rw [List.get?_append hh]
    exact hx
  refine ⟨?_, ?_, ?_, ?_⟩
  · intro kv hkv j hj
    rw [hms]
    rw [hn] at hkv
    rcases mem_dictSet hkv with hkv | hkv
    · rw [hkv] at hj ⊢
      rcases List.mem_append.mp hj with hj | hj
      · have hne : dictGetD c.method_name_index
            (pyLower method.name) [] ≠ [] := by
          intro h0
          rw [h0] at hj
          exact absurd hj (List.not_mem_nil j)
        rcases h1 _ (mem_of_dictGetD_ne hne) j hj with ⟨mi', hmi', hname⟩
        exact ⟨mi', hlift j mi' hmi', hname⟩
      · have hji : j = c.methods.length := by simpa using hj
        subst hji
        exact ⟨⟨method, filename, module⟩, List.get?_concat_length _ _, rfl⟩
    · rcases h1 kv hkv j hj with ⟨mi', hmi', hname⟩
      exact ⟨mi', hlift j mi' hmi', hname⟩
  · intro kv hkv j hj
    rw [hms]
    rw [hm] at hkv
    by_cases hmod0 : module = ""
    · rw [if_neg (fun hh => hh hmod0)] at hkv
      rcases h2 kv hkv j hj with ⟨mi', hmi', hmod, hname⟩
      exact ⟨mi', hlift j mi' hmi', hmod, hname⟩
    · rw [if_pos hmod0] at hkv
      rcases mem_dictSet hkv with hkv | hkv
      · rw [hkv] at hj ⊢
        rcases List.mem_append.mp hj with hj | hj
        · have hne : dictGetD c.method_module_index
              (pyLower module) [] ≠ [] := by
            intro h0
            rw [h0] at hj
            exact absurd hj (List.not_mem_nil j)
          rcases h2 _ (mem_of_dictGetD_ne hne) j hj with
            ⟨mi', hmi', hmod, hname⟩
          exact ⟨mi', hlift j mi' hmi', hmod, hname⟩
        · have hji : j = c.methods.length := by simpa using hj
          subst hji
          exact ⟨⟨method, filename, module⟩, List.get?_concat_length _ _,
            hmod0, rfl⟩
      · rcases h2 kv hkv j hj with ⟨mi', hmi', hmod, hname⟩
        exact ⟨mi', hlift j mi' hmi', hmod, hname⟩
  · intro j hj
    rw [hms]
    rw [he] at hj
    cases hexp : method.is_export with
    | true =>
      rw [if_pos hexp] at hj
      rcases List.mem_append.mp hj with hj | hj
      · rcases h3 j hj with ⟨mi', hmi', hexp'⟩
        exact ⟨mi', hlift j mi' hmi', hexp'⟩
      · have hji : j = c.methods.length := by simpa using hj
        subst hji
        exact ⟨⟨method, filename, module⟩, List.get?_concat_length _ _, hexp⟩
    | false =>
      rw [if_neg (by simp [hexp])] at hj
      rcases h3 j hj with ⟨mi', hmi', hexp'⟩
      exact ⟨mi', hlift j mi' hmi', hexp'⟩
  · intro i mi' hx
    rw [hms] at hx
    rcases get?_concat_inv hx with hold | ⟨hi, hmi⟩
    · obtain ⟨a, b, d⟩ := h4 i mi' hold
      refine ⟨?_, ?_, ?_⟩
      · rw [hn]
        by_cases hk : pyLower mi'.method.name = pyLower method.name
        · rw [hk, dictGetD_dictSet_self]
          exact List.mem_append_left _ (hk ▸ a)
        · rw [dictGetD_dictSet_ne _ _ _ hk]
          exact a
      · intro hmod
        rw [hm]
        by_cases hmod0 : module = ""
        · rw [if_neg (fun hh => hh hmod0)]
          exact b hmod
        · rw [if_pos hmod0]
          by_cases hk : pyLower mi'.module = pyLower module
          · rw [hk, dictGetD_dictSet_self]
            exact List.mem_append_left _ (hk ▸ b hmod)
          · rw [dictGetD_dictSet_ne _ _ _ hk]
            exact b hmod
      · intro hexp
        rw [he]
        cases hexp0 : method.is_export with
        | true =>
          rw [if_pos rfl]
          exact List.mem_append_left _ (d hexp)
        | false =>
          rw [if_neg (by simp)]
          exact d hexp
    · subst hi
      subst hmi
      refine ⟨?_, ?_, ?_⟩
      · rw [hn]
        show c.methods.length ∈ dictGetD
          (dictSet c.method_name_index (pyLower method.name)
            (dictGetD c.method_name_index (pyLower method.name) []
              ++ [c.methods.length]))
          (pyLower method.name) []
        rw [dictGetD_dictSet_self]
        simp
      · intro hmod
        rw [hm, if_pos (show module ≠ "" from hmod)]
        show c.methods.length ∈ dictGetD
          (dictSet c.method_module_index (pyLower module)
            (dictGetD c.method_module_index (pyLower module) []
              ++ [c.methods.length]))
          (pyLower module) []
        rw [dictGetD_dictSet_self]
        simp
      · intro hexp
        rw [he, if_pos (show method.is_export = true from hexp)]
        simp

theorem add_methods_batch_IndexValid :
    ∀ (L : List (BSLMethod × String × String)) (c : BSLCache),
      c.IndexValid → (c.add_methods_batch L).IndexValid := by
  intro L
  induction L with
  | nil => intro c h; exact h
  | cons t L ih =>
    intro c h
    exact ih _ (addMethodCore_IndexValid c t.1 t.2.1 t.2.2 h)

theorem add_module_vars_batch_IndexValid :
    ∀ (L : List (BSLModuleVar × String)) (c : BSLCache),
      c.IndexValid → (c.add_module_vars_batch L).IndexValid := by
  intro L
  induction L with
  | nil => intro c h; exact h
  | cons t L ih => intro c h; exact ih _ h

theorem add_calls_batch_IndexValid :
    ∀ (L : List (BSLCallPosition × String × String × String)) (c : BSLCache),
      c.IndexValid → (c.add_calls_batch L).IndexValid := by
  intro L
  induction L with
  | nil => intro c h; exact h
  | cons t L ih => intro c h; exact ih _ h

theorem WF_add_methods_batch :
    ∀ (L : List (BSLMethod × String × String)) (c : BSLCache),
      c.WF → (c.add_methods_batch L).WF := by
  intro L
  induction L with
  | nil => intro c h; exact h
  | cons t L ih => intro c h; exact ih _ h

theorem WF_add_module_var (c : BSLCache) (v : BSLModuleVar) (fn : String)
    (h : c.WF) : (c.add_module_var v fn).WF :=
  ⟨keys_dictSet_nodup _ _ h.1, h.2⟩

theorem WF_add_module_vars_batch :
    ∀ (L : List (BSLModuleVar × String)) (c : BSLCache),
      c.WF → (c.add_module_vars_batch L).WF := by
  intro L
  induction L with
  | nil => intro c h; exact h
  | cons t L ih => intro c h; exact ih _ (WF_add_module_var c t.1 t.2 h)

theorem WF_addCallCore (c : BSLCache) (call : BSLCallPosition)
    (fn mn md : String) (h : c.WF) :
    (BSLCache.addCallCore c call fn mn md).WF :=
  ⟨h.1, keys_dictSet_nodup _ _ h.2⟩

theorem WF_add_calls_batch :
    ∀ (L : List (BSLCallPosition × String × String × String)) (c : BSLCache),
      c.WF → (c.add_calls_batch L).WF := by
  intro L
  induction L with
  | nil => intro c h; exact h
  | cons t L ih =>
    intro c h
    exact ih _ (WF_addCallCore c t.1 t.2.1 t.2.2.1 t.2.2.2 h)

theorem WF_remove (c : BSLCache) (f : String) (h : c.WF) :
    (c.remove_file_data f).WF := by
  refine ⟨?_, ?_⟩
  · exact ((dictPop_sublist c.module_vars f).map Prod.fst).nodup h.1
  · have hCF : ((c.calls.map (fun kv =>
        (kv.1, kv.2.filter (fun ci => !(ci.filename == f))))).map
          Prod.fst).Nodup := by
      rw [List.map_map]
      exact h.2
    exact ((foldl_dictPop_sublist _ _).map Prod.fst).nodup hCF

theorem remove_file_data_post (c : BSLCache) (f : String) (hwf : c.WF) :
    (∀ mi ∈ (c.remove_file_data f).methods, mi.filename ≠ f)
    ∧ (∀ kv ∈ (c.remove_file_data f).module_vars, kv.1 ≠ f)
    ∧ (∀ kv ∈ (c.remove_file_data f).calls,
        (∀ ci ∈ kv.2, ci.filename ≠ f) ∧ kv.2 ≠ [])
    ∧ (∀ mo ∈ (c.remove_file_data f).modules, mo.filename ≠ f) := by
  have hmeq : (c.remove_file_data f).methods
      = c.methods.filter (fun mi => !(mi.filename == f)) :=
    eraseLoop_eq_filter (fun mi : BSLMethodInfo => mi.filename == f) c.methods
  refine ⟨?_, ?_, ?_, ?_⟩
  · intro mi hmi
    rw [hmeq] at hmi
    have := (List.mem_filter.mp hmi).2
    simpa using this
  · intro kv hkv
    exact mem_dictPop_ne hwf.1 kv hkv
  · intro kv hkv
    have hsub : kv ∈ c.calls.map (fun kv =>
        (kv.1, kv.2.filter (fun ci => !(ci.filename == f)))) :=
      (foldl_dictPop_sublist _ _).subset hkv
    refine ⟨?_, ?_⟩
    · intro ci hci
      rcases List.mem_map.mp hsub with ⟨kv0, _, hkv0⟩
      rw [← hkv0] at hci
      have := (List.mem_filter.mp hci).2
      simpa using this
    · intro hempty
      have hnd : ((c.calls.map (fun kv =>
          (kv.1, kv.2.filter (fun ci => !(ci.filename == f))))).map
            Prod.fst).Nodup := by
        rw [List.map_map]
        exact hwf.2
      have hnotin := foldl_dictPop_not_mem _ _ hnd kv hkv
      apply hnotin
      apply List.mem_map.mpr
      refine ⟨kv, ?_, rfl⟩
      apply List.mem_filter.mpr
      refine ⟨hsub, ?_⟩
      simp [hempty]
  · intro mo hmo
    have := (List.mem_filter.mp hmo).2
    simpa using this

theorem emptyCache_inv :
    BSLCache.emptyCache.WF ∧ BSLCache.emptyCache.IndexValid := by
  refine ⟨⟨List.nodup_nil, List.nodup_nil⟩, ?_, ?_, ?_, ?_⟩
  · intro kv hkv
    exact absurd hkv (List.not_mem_nil kv)
  · intro kv hkv
    exact absurd hkv (List.not_mem_nil kv)
  · intro j hj
    exact absurd hj (List.not_mem_nil j)
  · intro i mi hx
    simp [BSLCache.emptyCache] at hx

theorem applyOp_inv (c : BSLCache) (op : CacheOp)
    (h : c.WF ∧ c.IndexValid) :
    (applyOp c op).WF ∧ (applyOp c op).IndexValid := by
  obtain ⟨hwf, hiv⟩ := h
  cases op with
  | addMethod m fn md =>
    exact ⟨hwf, addMethodCore_IndexValid c m fn md hiv⟩
  | addMethodsBatch data =>
    exact ⟨WF_add_methods_batch data c hwf,
      add_methods_batch_IndexValid data c hiv⟩
  | addModuleVar v fn =>
    exact ⟨WF_add_module_var c v fn hwf, hiv⟩
  | addModuleVarsBatch data =>
    exact ⟨WF_add_module_vars_batch data c hwf,
      add_module_vars_batch_IndexValid data c hiv⟩
  | addCall call fn mn md =>
    exact ⟨WF_addCallCore c call fn mn md hwf, hiv⟩
  | addCallsBatch data =>
    exact ⟨WF_add_calls_batch data c hwf,
      add_calls_batch_IndexValid data c hiv⟩
  | addModule mo =>
    exact ⟨hwf, hiv⟩
  | removeFileData fn =>
    exact ⟨WF_remove c fn hwf, remove_IndexValid c fn⟩

theorem applyOps_inv :
    ∀ (ops : List CacheOp) (c : BSLCache), c.WF ∧ c.IndexValid →
      (applyOps c ops).WF ∧ (applyOps c ops).IndexValid := by
  intro ops
  induction ops with
  | nil => intro c h; exact h
  | cons op ops ih =>
    intro c h
    exact ih (applyOp c op) (applyOp_inv c op h)

/-- C3: for every well-formed cache state and filename `f`,
`remove_file_data f` leaves no record with filename `f` in any of the
four collections, leaves no call-map key bound to an empty list, and
rebuilds the three method indices so that every entry points to a valid
surviving method with the matching key and every surviving method is
recorded in each index that should contain it; moreover index validity
(and dict-key well-formedness) holds after every sequence of add and
remove operations on an initially empty cache. -/
theorem C3_cache_invariants (c : BSLCache) (f : String) (hwf : c.WF) :
    (∀ mi ∈ (c.remove_file_data f).methods, mi.filename ≠ f)
    ∧ (∀ kv ∈ (c.remove_file_data f).module_vars, kv.1 ≠ f)
    ∧ (∀ kv ∈ (c.remove_file_data f).calls,
        (∀ ci ∈ kv.2, ci.filename ≠ f) ∧ kv.2 ≠ [])
    ∧ (∀ mo ∈ (c.remove_file_data f).modules, mo.filename ≠ f)
    ∧ (c.remove_file_data f).IndexValid
    ∧ (∀ ops : List CacheOp,
        (applyOps BSLCache.emptyCache ops).IndexValid
        ∧ (applyOps BSLCache.emptyCache ops).WF) := by
  obtain ⟨p1, p2, p3, p4⟩ := remove_file_data_post c f hwf
  refine ⟨p1, p2, p3, p4, remove_IndexValid c f, ?_⟩
  intro ops
  obtain ⟨hw, hi⟩ := applyOps_inv ops BSLCache.emptyCache emptyCache_inv
  exact ⟨hi, hw⟩

theorem C3_witness :
    cacheDemo.WF
    ∧ ((∀ mi ∈ (cacheDemo.remove_file_data "a.bsl").methods,
          mi.filename ≠ "a.bsl")
      ∧ (∀ kv ∈ (cacheDemo.remove_file_data "a.bsl").module_vars,
          kv.1 ≠ "a.bsl")
      ∧ (∀ kv ∈ (cacheDemo.remove_file_data "a.bsl").calls,
          (∀ ci ∈ kv.2, ci.filename ≠ "a.bsl") ∧ kv.2 ≠ [])
      ∧ (∀ mo ∈ (cacheDemo.remove_file_data "a.bsl").modules,
          mo.filename ≠ "a.bsl")
      ∧ (cacheDemo.remove_file_data "a.bsl").IndexValid
      ∧ (∀ ops : List CacheOp,
          (applyOps BSLCache.emptyCache ops).IndexValid
          ∧ (applyOps BSLCache.emptyCache ops).WF)) :=
  ⟨⟨by decide, by decide⟩,
    C3_cache_invariants cacheDemo "a.bsl" ⟨by decide, by decide⟩⟩

end Serena
